import Mathlib

/-!
Verification development for the pathvalidate filepath engine.

The repository sources available are src/pathvalidate/_const.py,
src/pathvalidate/error.py and src/test/test_filepath.py.  The constants,
the Platform enumeration and the error hierarchy below are translated
directly from _const.py and error.py.  The filepath validator and
sanitizer themselves (pathvalidate._filepath) are not among the sources,
so they are modelled from the specification, with every point on which
the specification is ambiguous or contradicted resolved the way the
repository's own test suite (src/test/test_filepath.py) demands.
-/

/-- Platform enumeration, translated from the Platform enum in
src/pathvalidate/_const.py: members POSIX, UNIVERSAL, LINUX, WINDOWS, MACOS. -/
inductive Platform where
  | POSIX
  | UNIVERSAL
  | LINUX
  | WINDOWS
  | MACOS
  deriving DecidableEq

/-- String value of each Platform member, as written in src/pathvalidate/_const.py. -/
def Platform.value : Platform → String
  | .POSIX => "POSIX"
  | .UNIVERSAL => "universal"
  | .LINUX => "Linux"
  | .WINDOWS => "Windows"
  | .MACOS => "macOS"

/-- Constant DEFAULT_MIN_LEN from src/pathvalidate/_const.py. -/
def DEFAULT_MIN_LEN : Int := 1

/-- Constant _NTFS_RESERVED_FILE_NAMES from src/pathvalidate/_const.py
(reserved only in the root directory). -/
def NTFS_RESERVED_FILE_NAMES : List String :=
  ["$Mft", "$MftMirr", "$LogFile", "$Volume", "$AttrDef", "$Bitmap", "$Boot",
   "$BadClus", "$Secure", "$Upcase", "$Extend", "$Quota", "$ObjId", "$Reparse"]

/-- Error reasons, translated from the ErrorReason enum in src/pathvalidate/error.py. -/
inductive ErrorReason where
  | NULL_NAME
  | RESERVED_NAME
  | INVALID_CHARACTER
  | INVALID_LENGTH
  | FOUND_ABS_PATH
  | MALFORMED_ABS_PATH
  deriving DecidableEq

/-- Stable error code of each ErrorReason member, from src/pathvalidate/error.py. -/
def ErrorReason.code : ErrorReason → String
  | .NULL_NAME => "PV1001"
  | .RESERVED_NAME => "PV1002"
  | .INVALID_CHARACTER => "PV1100"
  | .INVALID_LENGTH => "PV1101"
  | .FOUND_ABS_PATH => "PV2001"
  | .MALFORMED_ABS_PATH => "PV2002"

/-- Keyword arguments accepted by ValidationError.__init__ in
src/pathvalidate/error.py; each field mirrors one kwargs.pop with its default. -/
structure ErrKwargs where
  platform : Option Platform
  reason : Option ErrorReason
  description : Option String
  reserved_name : String
  reusable_name : Option Bool

/-- Attribute state of a constructed ValidationError from src/pathvalidate/error.py. -/
structure ValidationErrorData where
  platform : Option Platform
  reason : Option ErrorReason
  description : Option String
  reserved_name : String
  reusable_name : Option Bool
  deriving DecidableEq

/-- ValidationError.__init__ from src/pathvalidate/error.py: each attribute is
popped from the keyword arguments (defaults: none / empty string). -/
def mkValidationError (k : ErrKwargs) : ValidationErrorData :=
  ⟨k.platform, k.reason, k.description, k.reserved_name, k.reusable_name⟩

/-- NullNameError.__init__ from src/pathvalidate/error.py: forces
kwargs["reason"] = ErrorReason.NULL_NAME before delegating. -/
def mkNullNameError (k : ErrKwargs) : ValidationErrorData :=
  mkValidationError {k with reason := some .NULL_NAME}

/-- InvalidCharError.__init__ from src/pathvalidate/error.py: forces
kwargs["reason"] = ErrorReason.INVALID_CHARACTER before delegating. -/
def mkInvalidCharError (k : ErrKwargs) : ValidationErrorData :=
  mkValidationError {k with reason := some .INVALID_CHARACTER}

/-- InvalidLengthError.__init__ from src/pathvalidate/error.py: forces
kwargs["reason"] = ErrorReason.INVALID_LENGTH before delegating. -/
def mkInvalidLengthError (k : ErrKwargs) : ValidationErrorData :=
  mkValidationError {k with reason := some .INVALID_LENGTH}

/-- ReservedNameError.__init__ from src/pathvalidate/error.py: forces
kwargs["reason"] = ErrorReason.RESERVED_NAME before delegating. -/
def mkReservedNameError (k : ErrKwargs) : ValidationErrorData :=
  mkValidationError {k with reason := some .RESERVED_NAME}

/-- ValidReservedNameError.__init__ from src/pathvalidate/error.py: forces
kwargs["reusable_name"] = True, then delegates to ReservedNameError.__init__. -/
def mkValidReservedNameError (k : ErrKwargs) : ValidationErrorData :=
  mkReservedNameError {k with reusable_name := some true}

/-- InvalidReservedNameError.__init__ from src/pathvalidate/error.py: forces
kwargs["reusable_name"] = False, then delegates to ReservedNameError.__init__. -/
def mkInvalidReservedNameError (k : ErrKwargs) : ValidationErrorData :=
  mkReservedNameError {k with reusable_name := some false}

/-- Result of a validate_filepath call: success, a synchronous caller-usage
error (a plain ValueError in the source, not a ValidationError), or a
ValidationError with its reason. -/
inductive VResult where
  | ok
  | usageError
  | fail (reason : ErrorReason)
  deriving DecidableEq

/-- Modelled from the spec: the Windows-reserved base device names
(section 4.1; the spec's CON, PRN, AUX, NUL, CLOCK$, COM1..COM9, LPT1..LPT9,
confirmed verbatim by Test_FileSanitizer.test_normal_reserved_keywords).
The names "." and ".." are reserved but reusable inside a path, so they never
make a filepath invalid and are kept out of this list. -/
def WINDOWS_RESERVED_FILE_NAMES : List String :=
  ["CON", "PRN", "AUX", "NUL", "CLOCK$",
   "COM1", "COM2", "COM3", "COM4", "COM5", "COM6", "COM7", "COM8", "COM9",
   "LPT1", "LPT2", "LPT3", "LPT4", "LPT5", "LPT6", "LPT7", "LPT8", "LPT9"]

/-- True for the platforms that apply the Windows character and reserved-name
rules (Windows itself and the universal superset mode, spec section 4.1). -/
def isWinStyle : Platform → Bool
  | .WINDOWS => true
  | .UNIVERSAL => true
  | _ => false

/-- Modelled from the spec: punctuation invalid in Windows path components
(section 4.1). -/
def winInvalidPunct : List Char := [':', '*', '?', '\"', '<', '>', '|']

/-- Modelled from the spec: invalid characters of a path component per
platform (section 4.1).  Windows and Universal reject the C0 control range
(which contains NUL) and the Windows punctuation set; the POSIX-like
platforms reject only NUL.  The spec's extra colon restriction for macOS is
not modelled because Test_validate_filepath.test_normal_reserved_name
requires drive-letter paths containing a colon to validate on macos. -/
def invalidCharB (p : Platform) (c : Char) : Bool :=
  if isWinStyle p then decide (c.toNat < 32) || winInvalidPunct.contains c
  else decide (c.toNat = 0)

/-- Modelled from the spec: path separators per platform (section 4.4).  The
Windows-style platforms split on both slash and backslash; the POSIX-like
platforms split on slash only, which is what lets the backslash-only test
paths of Test_validate_filepath pass unchanged on linux and macos. -/
def isSep (p : Platform) (c : Char) : Bool :=
  c == '/' || (isWinStyle p && c == '\\')

/-- Helper splitting a character list at the platform separators: returns the
first group (before any separator) and the remaining groups. -/
def splitAux (p : Platform) : List Char → List Char × List (List Char)
  | [] => ([], [])
  | c :: rest =>
    if isSep p c then ([], (splitAux p rest).1 :: (splitAux p rest).2)
    else (c :: (splitAux p rest).1, (splitAux p rest).2)

/-- Path components of a character list: the non-empty groups between
separators (empty segments produced by repeated separators are skipped, as
the valid UNC test paths with doubled separators require). -/
def compsOf (p : Platform) (l : List Char) : List (List Char) :=
  ((splitAux p l).1 :: (splitAux p l).2).filter (fun g => !g.isEmpty)

/-- Joins components with a separator character. -/
def joinSep (sep : Char) : List (List Char) → List Char
  | [] => []
  | [g] => g
  | g :: g2 :: rest => g ++ sep :: joinSep sep (g2 :: rest)

/-- Number of leading separator characters. -/
def leadSeps (p : Platform) (l : List Char) : Nat :=
  (l.takeWhile (fun c => isSep p c)).length

/-- Modelled from the spec: drive-letter recognition (section 4.4).  On the
Windows-style platforms a leading alphabetic character followed by a colon is
a drive prefix; elsewhere there are no drives. -/
def driveOf (p : Platform) (l : List Char) : Option (Char × List Char) :=
  match l with
  | d :: c :: rest =>
    if isWinStyle p && d.isAlpha && (c == ':') then some (d, rest) else none
  | _ => none

/-- Recognized absolute-path anchor of a path (spec section 4.4): none, a
rooted path (one leading separator), a drive letter, a UNC host, or a UNC
prefix whose host is missing entirely. -/
inductive PathAnchor where
  | relative
  | rooted
  | drive (d : Char)
  | unc (host : List Char)
  | uncEmpty
  deriving DecidableEq

/-- Modelled from the spec: path decomposition (section 4.4).  Two or more
leading separators on a Windows-style platform start a UNC prefix whose host
is the first component (uncEmpty when nothing follows); one leading separator
is a rooted path; otherwise a drive prefix is recognized and the rest splits
into components. -/
def parsePath (p : Platform) (l : List Char) : PathAnchor × List (List Char) :=
  if 2 ≤ leadSeps p l ∧ isWinStyle p = true then
    match compsOf p l with
    | [] => (.uncEmpty, [])
    | h :: t => (.unc h, t)
  else if 1 ≤ leadSeps p l then (.rooted, compsOf p l)
  else
    match driveOf p l with
    | some (d, rest) => (.drive d, compsOf p rest)
    | none => (.relative, compsOf p l)

/-- Reassembles an anchor and components with the given separator character
(spec section 4.5).  A host-less UNC prefix renders as a plain root. -/
def renderPath (sep : Char) : PathAnchor → List (List Char) → List Char
  | .relative, cs => joinSep sep cs
  | .rooted, cs => sep :: joinSep sep cs
  | .drive d, [] => [d, ':']
  | .drive d, cs => d :: ':' :: sep :: joinSep sep cs
  | .unc h, [] => sep :: sep :: h
  | .unc h, cs => sep :: sep :: (h ++ sep :: joinSep sep cs)
  | .uncEmpty, _ => [sep]

/-- Uppercased name used for case-insensitive reserved-name comparison. -/
def upName (l : List Char) : String :=
  String.mk (l.map Char.toUpper)

/-- Splits a character list at its last dot: returns the part before the dot
and the part from the dot on, or none when there is no dot. -/
def splitLastDot : List Char → Option (List Char × List Char)
  | [] => none
  | c :: rest =>
    match splitLastDot rest with
    | some (b, e) => some (c :: b, e)
    | none => if c = '.' then some ([], c :: rest) else none

/-- Modelled from the spec: extension stripping for reserved-name matching
(section 4.1, "matched against the name with any extension stripped"), with
Python os.path.splitext semantics: dots leading the name do not start an
extension. -/
def splitExt (l : List Char) : List Char × List Char :=
  let k := (l.takeWhile (fun c => c == '.')).length
  match splitLastDot (l.drop k) with
  | none => (l, [])
  | some (b, e) => (l.take k ++ b, e)

/-- Modelled from the spec: case-insensitive, extension-stripped match
against the Windows reserved device names (section 4.1). -/
def isDeviceName (l : List Char) : Bool :=
  WINDOWS_RESERVED_FILE_NAMES.any (fun d => d == upName (splitExt l).1)

/-- Modelled from the spec: case-insensitive whole-component match against
the NTFS metadata file names of src/pathvalidate/_const.py. -/
def isNtfsName (l : List Char) : Bool :=
  NTFS_RESERVED_FILE_NAMES.any (fun s => upName s.data == upName l)

/-- True for the components "." and "..", which are exempt from the
trailing-character rewrite (spec section 4.3). -/
def isDots (l : List Char) : Bool :=
  l == ['.'] || l == ['.', '.']

/-- Modelled from the spec: iterative stripping of trailing dots and spaces
(section 4.3), with the "." and ".." exemption. -/
def stripTail (l : List Char) : List Char :=
  if isDots l then l
  else (l.reverse.dropWhile (fun c => c == '.' || c == ' ')).reverse

/-- Modelled from the spec: reserved-name rewrite during sanitization
(section 4.3): with the default empty replacement text, the fixed fallback
suffix is an underscore appended to the extension-stripped base, as the
expected outputs of Test_sanitize_filepath.test_normal_reserved_name show. -/
def devFix (l : List Char) : List Char :=
  (splitExt l).1 ++ '_' :: (splitExt l).2

/-- Modelled from the spec: the name sanitizer for one path component with
the default empty replacement text (section 4.3): invalid characters are
removed, trailing dots and spaces stripped on the Windows-style platforms,
and a reserved device name gets the underscore fallback appended to its
base.  The trailing strip runs before the reserved-name rewrite so that the
idempotence law of spec section 8 holds.  Per-component length truncation is
not modelled: validate_filepath imposes no per-component length limit (a
4096-character single component validates on linux per
Test_validate_filepath.test_normal_max_len). -/
def sanitizeName (p : Platform) (l : List Char) : List Char :=
  if isWinStyle p then
    if isDeviceName (stripTail (l.filter (fun c => !invalidCharB p c))) then
      devFix (stripTail (l.filter (fun c => !invalidCharB p c)))
    else stripTail (l.filter (fun c => !invalidCharB p c))
  else l.filter (fun c => !invalidCharB p c)

/-- True when the anchor makes the path absolute. -/
def PathAnchor.isAbs : PathAnchor → Bool
  | .relative => false
  | .uncEmpty => false
  | _ => true

/-- Modelled from the spec: the NTFS metadata names are rewritten only in the
root-level component of an absolute path (sections 4.1 and 4.5). -/
def rootFix (a : PathAnchor) (cs : List (List Char)) : List (List Char) :=
  match cs with
  | [] => []
  | h :: t => if a.isAbs && isNtfsName h then (h ++ ['_']) :: t else h :: t

/-- True when the first component of an absolute path is an NTFS metadata
name. -/
def ntfsHead (cs : List (List Char)) : Bool :=
  match cs with
  | [] => false
  | h :: _ => isNtfsName h

/-- Modelled from the spec: the data checks of the path validator
(section 4.4): a host-less UNC prefix is a malformed absolute path; any
invalid character in a component fails; a reserved device component fails on
the Windows-style platforms; an NTFS metadata name fails in the root-level
component of an absolute path. -/
def validateCore (p : Platform) (l : List Char) : VResult :=
  let pr := parsePath p l
  if pr.1 = .uncEmpty then .fail .MALFORMED_ABS_PATH
  else if pr.2.any (fun g => g.any (fun c => invalidCharB p c)) then .fail .INVALID_CHARACTER
  else if isWinStyle p && pr.2.any isDeviceName then .fail .RESERVED_NAME
  else if pr.1.isAbs && ntfsHead pr.2 then .fail .RESERVED_NAME
  else .ok

/-- Modelled from the spec: default maximum whole-path length per platform
(section 4.1: 4096 for the POSIX-like platforms, 260 for Windows and for the
universal mode, a larger modern default for macOS). -/
def defaultMaxPathLen : Platform → Int
  | .WINDOWS => 260
  | .UNIVERSAL => 260
  | .MACOS => 1024
  | _ => 4096

/-- Modelled from the spec: validate_filepath (sections 4.2, 4.4, 6).
Caller-usage checks run first: the minimum length is clamped below by
DEFAULT_MIN_LEN (test_minmax_len accepts a negative min_len), the effective
maximum is the smaller of the caller max_len and the platform default
(test_normal_max_len expects a 5000-character path to fail on windows even
with max_len=10000), and a non-positive effective maximum or an inverted
pair raises a plain ValueError.  Then the data checks: empty input is
NullName, the whole-path length bound is InvalidLength, and the rest is
validateCore. -/
def validate_filepath (s : String) (p : Platform)
    (min_len max_len : Option Int) : VResult :=
  let minL : Int := max (min_len.getD DEFAULT_MIN_LEN) 1
  let maxL : Int :=
    match max_len with
    | none => defaultMaxPathLen p
    | some m => min m (defaultMaxPathLen p)
  if maxL < 1 then .usageError
  else if maxL < minL then .usageError
  else if s.data = [] then .fail .NULL_NAME
  else if (s.data.length : Int) > maxL then .fail .INVALID_LENGTH
  else if (s.data.length : Int) < minL then .fail .INVALID_LENGTH
  else validateCore p s.data

/-- Boolean wrapper is_valid_filepath (spec section 6). -/
def is_valid_filepath (s : String) (p : Platform)
    (min_len max_len : Option Int) : Bool :=
  validate_filepath s p min_len max_len == .ok

/-- Modelled from the spec: separator chosen for reassembly (section 4.5):
slash is canonical, except that the windows platform preserves backslash when
the original path used one (Test_sanitize_filepath.test_normal_reserved_name
expects backslashes kept on windows but rewritten to slashes on universal). -/
def chooseSep (p : Platform) (l : List Char) : Char :=
  if p = .WINDOWS ∧ '\\' ∈ l then '\\' else '/'

/-- Anchor of the sanitized path: a host-less UNC prefix collapses to a
plain root so that the sanitizer's output always validates (spec
section 4.3 postcondition). -/
def normAnchor (a : PathAnchor) : PathAnchor :=
  if a = .uncEmpty then .rooted else a

/-- Components of the sanitized path: each component is sanitized, the ones
that become empty are dropped (spec section 4.5), and afterwards the NTFS
root-position rewrite is applied to the first surviving component. -/
def sanitizedComps (p : Platform) (l : List Char) : List (List Char) :=
  rootFix (normAnchor (parsePath p l).1)
    ((((parsePath p l).2).map (sanitizeName p)).filter (fun g => !g.isEmpty))

/-- Sanitized path at the character-list level, for a fixed separator. -/
def sanitizeCore (p : Platform) (sep : Char) (l : List Char) : List Char :=
  renderPath sep (normAnchor (parsePath p l).1) (sanitizedComps p l)

/-- Modelled from the spec: sanitize_filepath with the default empty
replacement text (sections 4.3, 4.5, 6). -/
def sanitize_filepath (s : String) (p : Platform) : String :=
  String.mk (sanitizeCore p (chooseSep p s.data) s.data)

/-! ### Splitting and joining lemmas -/

theorem splitAux_cons_sep {p : Platform} {c : Char} (l : List Char)
    (h : isSep p c = true) :
    splitAux p (c :: l) = ([], (splitAux p l).1 :: (splitAux p l).2) := by
  simp [splitAux, h]

theorem splitAux_cons_nosep {p : Platform} {c : Char} (l : List Char)
    (h : isSep p c = false) :
    splitAux p (c :: l) = (c :: (splitAux p l).1, (splitAux p l).2) := by
  simp [splitAux, h]

theorem splitAux_sepfree_append {p : Platform} {xs : List Char} (l : List Char)
    (h : ∀ c ∈ xs, isSep p c = false) :
    splitAux p (xs ++ l) = (xs ++ (splitAux p l).1, (splitAux p l).2) := by
  induction xs with
  | nil => simp
  | cons c rest ih =>
    have hc : isSep p c = false := h c (by simp)
    have ih2 := ih (fun d hd => h d (by simp [hd]))
    simp [splitAux, hc, ih2]

theorem splitAux_sepfree {p : Platform} {xs : List Char}
    (h : ∀ c ∈ xs, isSep p c = false) :
    splitAux p xs = (xs, []) := by
  have := splitAux_sepfree_append (p := p) [] h
  simpa [splitAux] using this

theorem compsOf_nil (p : Platform) : compsOf p [] = [] := by
  simp [compsOf, splitAux]

theorem compsOf_cons_sep {p : Platform} {c : Char} (l : List Char)
    (h : isSep p c = true) :
    compsOf p (c :: l) = compsOf p l := by
  simp [compsOf, splitAux_cons_sep l h]

theorem compsOf_sepfree {p : Platform} {xs : List Char}
    (hne : xs ≠ []) (h : ∀ c ∈ xs, isSep p c = false) :
    compsOf p xs = [xs] := by
  simp [compsOf, splitAux_sepfree h, hne]

theorem compsOf_sepfree_append_sep {p : Platform} {xs : List Char} {s : Char}
    (l : List Char) (hne : xs ≠ []) (h : ∀ c ∈ xs, isSep p c = false)
    (hs : isSep p s = true) :
    compsOf p (xs ++ s :: l) = xs :: compsOf p l := by
  have h1 := splitAux_sepfree_append (p := p) (s :: l) h
  rw [splitAux_cons_sep l hs] at h1
  simp [compsOf, h1, hne]

theorem joinSep_cons_cons (sep : Char) (g g2 : List Char) (rest : List (List Char)) :
    joinSep sep (g :: g2 :: rest) = g ++ sep :: joinSep sep (g2 :: rest) := rfl

theorem compsOf_joinSep {p : Platform} {sep : Char} {gs : List (List Char)}
    (hs : isSep p sep = true)
    (h : ∀ g ∈ gs, g ≠ [] ∧ ∀ c ∈ g, isSep p c = false) :
    compsOf p (joinSep sep gs) = gs := by
  induction gs with
  | nil => simp [joinSep, compsOf_nil]
  | cons g rest ih =>
    match rest with
    | [] =>
      have hg := h g (by simp)
      simpa [joinSep] using compsOf_sepfree hg.1 hg.2
    | g2 :: rest2 =>
      have hg := h g (by simp)
      have ih2 := ih (fun x hx => h x (by simp [hx]))
      rw [joinSep_cons_cons, compsOf_sepfree_append_sep _ hg.1 hg.2 hs, ih2]

theorem splitAux_groups_sepfree (p : Platform) (l : List Char) :
    (∀ c ∈ (splitAux p l).1, isSep p c = false) ∧
    (∀ g ∈ (splitAux p l).2, ∀ c ∈ g, isSep p c = false) := by
  induction l with
  | nil => simp [splitAux]
  | cons c rest ih =>
    by_cases hc : isSep p c = true
    · rw [splitAux_cons_sep rest hc]
      refine ⟨by simp, ?_⟩
      intro g hg
      simp only [List.mem_cons] at hg
      rcases hg with hg | hg
      · exact hg ▸ ih.1
      · exact ih.2 g hg
    · have hc' : isSep p c = false := by
        cases h : isSep p c
        · rfl
        · exact absurd h hc
      rw [splitAux_cons_nosep rest hc']
      refine ⟨?_, ih.2⟩
      intro d hd
      simp only [List.mem_cons] at hd
      rcases hd with rfl | hd
      · exact hc'
      · exact ih.1 d hd

theorem compsOf_props (p : Platform) (l : List Char) :
    ∀ g ∈ compsOf p l, g ≠ [] ∧ ∀ c ∈ g, isSep p c = false := by
  intro g hg
  have h := splitAux_groups_sepfree p l
  simp only [compsOf, List.mem_filter, List.mem_cons] at hg
  refine ⟨by simpa using hg.2, ?_⟩
  rcases hg.1 with hg1 | hg1
  · exact hg1 ▸ h.1
  · exact h.2 g hg1

theorem leadSeps_nil (p : Platform) : leadSeps p [] = 0 := rfl

theorem leadSeps_cons_nosep {p : Platform} {c : Char} (l : List Char)
    (h : isSep p c = false) : leadSeps p (c :: l) = 0 := by
  simp [leadSeps, List.takeWhile_cons, h]

theorem leadSeps_cons_sep {p : Platform} {c : Char} (l : List Char)
    (h : isSep p c = true) : leadSeps p (c :: l) = leadSeps p l + 1 := by
  simp [leadSeps, List.takeWhile_cons, h]

/-! ### Parse and render round trip -/

/-- Invariant of a sanitized component list: the components are non-empty,
contain no separators and, on the Windows-style platforms, no colon. -/
def GoodComps (p : Platform) (cs : List (List Char)) : Prop :=
  ∀ g ∈ cs, g ≠ [] ∧ ∀ c ∈ g, isSep p c = false ∧ (isWinStyle p = true → c ≠ ':')

theorem goodComps_weaken {p : Platform} {cs : List (List Char)}
    (h : GoodComps p cs) :
    ∀ g ∈ cs, g ≠ [] ∧ ∀ c ∈ g, isSep p c = false :=
  fun g hg => ⟨(h g hg).1, fun c hc => ((h g hg).2 c hc).1⟩

theorem isSep_colon (p : Platform) : isSep p ':' = false := by
  simp [isSep]

theorem sep_ne_colon {p : Platform} {c : Char} (h : isSep p c = true) : c ≠ ':' := by
  intro hc
  rw [hc, isSep_colon] at h
  exact absurd h (by simp)

theorem alpha_not_sep {p : Platform} {c : Char} (h : c.isAlpha = true) :
    isSep p c = false := by
  cases hc : isSep p c
  · rfl
  · exfalso
    simp only [isSep, Bool.or_eq_true, beq_iff_eq, Bool.and_eq_true] at hc
    rcases hc with rfl | ⟨-, rfl⟩
    · exact absurd h (by decide)
    · exact absurd h (by decide)

theorem joinSep_cons (sep : Char) (g : List Char) (rest : List (List Char)) :
    joinSep sep (g :: rest) =
      g ++ (if rest.isEmpty then [] else sep :: joinSep sep rest) := by
  cases rest with
  | nil => simp [joinSep]
  | cons g2 rest2 => simp [joinSep]

theorem parse_render_relative {p : Platform} {sep : Char} {cs : List (List Char)}
    (hsep : isSep p sep = true) (hcs : GoodComps p cs) :
    parsePath p (renderPath sep .relative cs) = (.relative, cs) := by
  cases cs with
  | nil =>
    simp [renderPath, joinSep, parsePath, leadSeps_nil, driveOf, compsOf_nil]
  | cons g rest =>
    have hg := hcs g (by simp)
    obtain ⟨c0, g', rfl⟩ : ∃ c0 g', g = c0 :: g' := by
      cases g with
      | nil => exact absurd rfl hg.1
      | cons a b => exact ⟨a, b, rfl⟩
    have hc0 : isSep p c0 = false := (hg.2 c0 (by simp)).1
    have hjoin : joinSep sep ((c0 :: g') :: rest) =
        c0 :: (g' ++ (if rest.isEmpty then [] else sep :: joinSep sep rest)) := by
      rw [joinSep_cons]; rfl
    have hlead : leadSeps p (joinSep sep ((c0 :: g') :: rest)) = 0 := by
      rw [hjoin]; exact leadSeps_cons_nosep _ hc0
    have hcomps : compsOf p (joinSep sep ((c0 :: g') :: rest)) = (c0 :: g') :: rest :=
      compsOf_joinSep hsep (goodComps_weaken hcs)
    have hdrive : driveOf p (joinSep sep ((c0 :: g') :: rest)) = none := by
      rw [hjoin]
      cases g' with
      | nil =>
        cases rest with
        | nil => rfl
        | cons r rs =>
          simp only [List.isEmpty_cons, List.nil_append]
          simp only [driveOf]
          have : (sep == ':') = false := by
            simp [sep_ne_colon hsep]
          simp [this]
      | cons c1 g'' =>
        simp only [List.cons_append, driveOf]
        have hc1 : (isWinStyle p = true → c1 ≠ ':') := (hg.2 c1 (by simp)).2
        by_cases hw : isWinStyle p = true
        · have : (c1 == ':') = false := by simp [hc1 hw]
          simp [this]
        · have hw' : isWinStyle p = false := by
            cases h : isWinStyle p
            · rfl
            · exact absurd h hw
          simp [hw']
    simp only [renderPath, parsePath, hlead, hdrive, hcomps]
    simp

theorem parse_render_rooted {p : Platform} {sep : Char} {cs : List (List Char)}
    (hsep : isSep p sep = true) (hcs : GoodComps p cs) :
    parsePath p (renderPath sep .rooted cs) = (.rooted, cs) := by
  cases cs with
  | nil =>
    have hlead : leadSeps p ([sep] : List Char) = 1 := by
      rw [leadSeps_cons_sep _ hsep, leadSeps_nil]
    have hcomps : compsOf p ([sep] : List Char) = [] := by
      rw [compsOf_cons_sep _ hsep, compsOf_nil]
    simp [renderPath, joinSep, parsePath, hlead, hcomps]
  | cons g rest =>
    have hg := hcs g (by simp)
    obtain ⟨c0, g', rfl⟩ : ∃ c0 g', g = c0 :: g' := by
      cases g with
      | nil => exact absurd rfl hg.1
      | cons a b => exact ⟨a, b, rfl⟩
    have hc0 : isSep p c0 = false := (hg.2 c0 (by simp)).1
    have hjoin : joinSep sep ((c0 :: g') :: rest) =
        c0 :: (g' ++ (if rest.isEmpty then [] else sep :: joinSep sep rest)) := by
      rw [joinSep_cons]; rfl
    have hlead : leadSeps p (renderPath sep .rooted ((c0 :: g') :: rest)) = 1 := by
      show leadSeps p (sep :: joinSep sep ((c0 :: g') :: rest)) = 1
      rw [leadSeps_cons_sep _ hsep, hjoin, leadSeps_cons_nosep _ hc0]
    have hcomps : compsOf p (sep :: joinSep sep ((c0 :: g') :: rest)) =
        (c0 :: g') :: rest := by
      rw [compsOf_cons_sep _ hsep]
      exact compsOf_joinSep hsep (goodComps_weaken hcs)
    simp only [renderPath] at hlead ⊢
    simp [parsePath, hlead, hcomps]

theorem parse_render_drive {p : Platform} {sep : Char} {d : Char}
    {cs : List (List Char)} (hsep : isSep p sep = true) (hcs : GoodComps p cs)
    (hwin : isWinStyle p = true) (hd : d.isAlpha = true) :
    parsePath p (renderPath sep (.drive d) cs) = (.drive d, cs) := by
  have hdns : isSep p d = false := alpha_not_sep hd
  cases cs with
  | nil =>
    have hlead : leadSeps p ([d, ':'] : List Char) = 0 := leadSeps_cons_nosep _ hdns
    have hdrive : driveOf p ([d, ':'] : List Char) = some (d, []) := by
      simp [driveOf, hwin, hd]
    simp [renderPath, parsePath, hlead, hdrive, compsOf_nil]
  | cons g rest =>
    have hlead : leadSeps p (d :: ':' :: sep :: joinSep sep (g :: rest)) = 0 :=
      leadSeps_cons_nosep _ hdns
    have hdrive : driveOf p (d :: ':' :: sep :: joinSep sep (g :: rest)) =
        some (d, sep :: joinSep sep (g :: rest)) := by
      simp [driveOf, hwin, hd]
    have hcomps : compsOf p (sep :: joinSep sep (g :: rest)) = g :: rest := by
      rw [compsOf_cons_sep _ hsep]
      exact compsOf_joinSep hsep (goodComps_weaken hcs)
    simp [renderPath, parsePath, hlead, hdrive, hcomps]

theorem parse_render_unc {p : Platform} {sep : Char} {h : List Char}
    {cs : List (List Char)} (hsep : isSep p sep = true) (hcs : GoodComps p cs)
    (hwin : isWinStyle p = true) (hh : h ≠ []) (hhs : ∀ c ∈ h, isSep p c = false) :
    parsePath p (renderPath sep (.unc h) cs) = (.unc h, cs) := by
  obtain ⟨c0, h', rfl⟩ : ∃ c0 h', h = c0 :: h' := by
    cases h with
    | nil => exact absurd rfl hh
    | cons a b => exact ⟨a, b, rfl⟩
  have hc0 : isSep p c0 = false := hhs c0 (by simp)
  cases cs with
  | nil =>
    have hlead : leadSeps p (sep :: sep :: c0 :: h') = 2 := by
      rw [leadSeps_cons_sep _ hsep, leadSeps_cons_sep _ hsep,
        leadSeps_cons_nosep _ hc0]
    have hcomps : compsOf p (sep :: sep :: c0 :: h') = [c0 :: h'] := by
      rw [compsOf_cons_sep _ hsep, compsOf_cons_sep _ hsep]
      exact compsOf_sepfree (by simp) hhs
    simp [renderPath, parsePath, hlead, hcomps, hwin]
  | cons g rest =>
    have hbody : (c0 :: h') ++ sep :: joinSep sep (g :: rest) =
        c0 :: (h' ++ sep :: joinSep sep (g :: rest)) := rfl
    have hlead : leadSeps p
        (sep :: sep :: ((c0 :: h') ++ sep :: joinSep sep (g :: rest))) = 2 := by
      rw [leadSeps_cons_sep _ hsep, leadSeps_cons_sep _ hsep, hbody,
        leadSeps_cons_nosep _ hc0]
    have hcomps : compsOf p
        (sep :: sep :: ((c0 :: h') ++ sep :: joinSep sep (g :: rest))) =
        (c0 :: h') :: (g :: rest) := by
      rw [compsOf_cons_sep _ hsep, compsOf_cons_sep _ hsep,
        compsOf_sepfree_append_sep _ (by simp) hhs hsep]
      rw [compsOf_joinSep hsep (goodComps_weaken hcs)]
    rw [hbody] at hlead hcomps
    simp [renderPath, parsePath, hlead, hcomps, hwin]

/-! ### Extension splitting lemmas -/

theorem stripTail_dots {l : List Char} (h : isDots l = true) : stripTail l = l := by
  unfold stripTail
  rw [if_pos h]

theorem splitLastDot_append {l b e : List Char}
    (h : splitLastDot l = some (b, e)) : b ++ e = l := by
  induction l generalizing b e with
  | nil => simp [splitLastDot] at h
  | cons c rest ih =>
    rw [splitLastDot] at h
    cases hr : splitLastDot rest with
    | some be =>
      obtain ⟨b2, e2⟩ := be
      rw [hr] at h
      simp only [Option.some.injEq, Prod.mk.injEq] at h
      obtain ⟨h1, h2⟩ := h
      subst h1
      subst h2
      simpa using ih hr
    | none =>
      rw [hr] at h
      by_cases hc : c = '.'
      · simp [hc] at h
        obtain ⟨h1, h2⟩ := h
        subst h1
        subst h2
        simp [hc]
      · simp [hc] at h

theorem splitLastDot_none_iff {l : List Char} :
    splitLastDot l = none ↔ '.' ∉ l := by
  induction l with
  | nil => simp [splitLastDot]
  | cons c rest ih =>
    rw [splitLastDot]
    cases hr : splitLastDot rest with
    | some be =>
      have hmem : '.' ∈ rest := by
        by_contra hmem
        rw [ih.mpr hmem] at hr
        cases hr
      simp [hmem]
    | none =>
      have hrest : '.' ∉ rest := ih.mp hr
      by_cases hc : c = '.'
      · simp [hc]
      · simp [hc, hrest, Ne.symm hc]

theorem splitLastDot_ext {l b e : List Char}
    (h : splitLastDot l = some (b, e)) : ∃ r, e = '.' :: r ∧ '.' ∉ r := by
  induction l generalizing b e with
  | nil => simp [splitLastDot] at h
  | cons c rest ih =>
    rw [splitLastDot] at h
    cases hr : splitLastDot rest with
    | some be =>
      obtain ⟨b2, e2⟩ := be
      rw [hr] at h
      simp only [Option.some.injEq, Prod.mk.injEq] at h
      obtain ⟨h1, h2⟩ := h
      subst h1
      subst h2
      exact ih hr
    | none =>
      rw [hr] at h
      by_cases hc : c = '.'
      · simp [hc] at h
        obtain ⟨h1, h2⟩ := h
        subst h1
        subst h2
        exact ⟨rest, rfl, splitLastDot_none_iff.mp hr⟩
      · simp [hc] at h

theorem splitLastDot_last {xs r : List Char} (h : '.' ∉ r) :
    splitLastDot (xs ++ '.' :: r) = some (xs, '.' :: r) := by
  induction xs with
  | nil =>
    rw [List.nil_append, splitLastDot]
    rw [splitLastDot_none_iff.mpr h]
    simp
  | cons c rest ih =>
    rw [List.cons_append, splitLastDot, ih]

theorem splitExt_append (l : List Char) : (splitExt l).1 ++ (splitExt l).2 = l := by
  rw [splitExt]
  cases hs : splitLastDot (l.drop ((l.takeWhile (fun c => c == '.')).length)) with
  | none => simp
  | some be =>
    obtain ⟨b, e⟩ := be
    simp only []
    rw [List.append_assoc, splitLastDot_append hs, List.take_append_drop]

theorem splitExt_dotfree {l : List Char} (h : '.' ∉ l) : splitExt l = (l, []) := by
  rw [splitExt]
  have hd : '.' ∉ l.drop ((l.takeWhile (fun c => c == '.')).length) := by
    intro hmem
    exact h (List.mem_of_mem_drop hmem)
  rw [splitLastDot_none_iff.mpr hd]

theorem splitExt_ext_shape (l : List Char) :
    (splitExt l).2 = [] ∨ ∃ r, (splitExt l).2 = '.' :: r ∧ '.' ∉ r := by
  rw [splitExt]
  cases hs : splitLastDot (l.drop ((l.takeWhile (fun c => c == '.')).length)) with
  | none => simp
  | some be =>
    obtain ⟨b, e⟩ := be
    exact Or.inr (splitLastDot_ext hs)

theorem splitExt_base_underscore {b e : List Char}
    (hb : b ≠ []) (hbd : '.' ∉ b)
    (he : e = [] ∨ ∃ r, e = '.' :: r ∧ '.' ∉ r) :
    splitExt (b ++ '_' :: e) = (b ++ ['_'], e) := by
  obtain ⟨c0, b', rfl⟩ : ∃ c0 b', b = c0 :: b' := by
    cases b with
    | nil => exact absurd rfl hb
    | cons a bb => exact ⟨a, bb, rfl⟩
  have hc0 : ¬(c0 == '.') = true := by
    simp only [beq_iff_eq]
    intro hc
    exact hbd (by simp [hc])
  have htake : ((c0 :: b' ++ '_' :: e).takeWhile (fun c => c == '.')) = [] := by
    rw [List.cons_append]
    simp [List.takeWhile_cons, hc0]
  rcases he with rfl | ⟨r, rfl, hr⟩
  · have hnd : '.' ∉ (c0 :: b') ++ '_' :: ([] : List Char) := by
      intro hmem
      simp only [List.mem_append, List.mem_cons] at hmem
      rcases hmem with hmem | hmem | hmem
      · exact hbd (by simp [hmem])
      · cases hmem
      · cases hmem
    rw [splitExt, htake]
    simp only [List.length_nil, List.drop_zero]
    rw [splitLastDot_none_iff.mpr hnd]
  · have heq : (c0 :: b') ++ '_' :: '.' :: r = ((c0 :: b') ++ ['_']) ++ '.' :: r := by
      simp
    rw [splitExt, htake]
    simp only [List.length_nil, List.drop_zero]
    rw [heq, splitLastDot_last hr]
    simp

/-! ### Trailing-strip lemmas -/

theorem stripTail_of_rev_head {l : List Char}
    (h : ∀ c, l.reverse.head? = some c → ¬(c = '.' ∨ c = ' ')) :
    stripTail l = l := by
  by_cases hd : isDots l = true
  · exact stripTail_dots hd
  · unfold stripTail
    rw [if_neg hd]
    cases hrev : l.reverse with
    | nil =>
      have : l = [] := List.reverse_eq_nil_iff.mp hrev
      simp [this]
    | cons c rest =>
      have hc := h c (by simp [hrev])
      have hpred : ¬((c == '.' || c == ' ') = true) := by
        simp only [Bool.or_eq_true, beq_iff_eq]
        exact hc
      rw [List.dropWhile_cons, if_neg hpred]
      rw [← hrev, List.reverse_reverse]

theorem stripTail_subset {l : List Char} : ∀ c ∈ stripTail l, c ∈ l := by
  intro c hc
  unfold stripTail at hc
  by_cases hd : isDots l = true
  · rw [if_pos hd] at hc
    exact hc
  · rw [if_neg hd] at hc
    rw [List.mem_reverse] at hc
    have := (List.dropWhile_sublist (l := l.reverse)
      (fun c => c == '.' || c == ' ')).subset hc
    exact List.mem_reverse.mp this

theorem stripTail_rev_head {l : List Char} (hd : isDots l = false) :
    ∀ c, (stripTail l).reverse.head? = some c → ¬(c = '.' ∨ c = ' ') := by
  intro c hc hor
  unfold stripTail at hc
  rw [if_neg (by simp [hd]), List.reverse_reverse] at hc
  have := List.head?_dropWhile_not (fun c => c == '.' || c == ' ') l.reverse
  rw [hc] at this
  simp only [Bool.or_eq_true, beq_iff_eq] at this
  rcases hor with rfl | rfl <;> simp at this

theorem stripTail_idem (l : List Char) : stripTail (stripTail l) = stripTail l := by
  by_cases hd : isDots l = true
  · rw [stripTail_dots hd, stripTail_dots hd]
  · by_cases hdy : isDots (stripTail l) = true
    · exact stripTail_dots hdy
    · have hd' : isDots l = false := by
        cases h : isDots l
        · rfl
        · exact absurd h hd
      exact stripTail_of_rev_head (stripTail_rev_head hd')

/-! ### Reserved-name facts -/

theorem devEntry_no_dot : ∀ d ∈ WINDOWS_RESERVED_FILE_NAMES, '.' ∉ d.data := by decide

theorem devEntry_nonempty : ∀ d ∈ WINDOWS_RESERVED_FILE_NAMES, d.data ≠ [] := by decide

theorem devEntry_underscore :
    ∀ d1 ∈ WINDOWS_RESERVED_FILE_NAMES, ∀ d2 ∈ WINDOWS_RESERVED_FILE_NAMES,
      ¬ String.mk (d1.data ++ ['_']) = d2 := by decide

theorem ntfsUp_no_dot :
    ∀ n ∈ NTFS_RESERVED_FILE_NAMES, '.' ∉ n.data.map Char.toUpper := by decide

theorem ntfsUp_nonempty :
    ∀ n ∈ NTFS_RESERVED_FILE_NAMES, n.data.map Char.toUpper ≠ [] := by decide

theorem ntfsUp_underscore_dev :
    ∀ n ∈ NTFS_RESERVED_FILE_NAMES, ∀ d ∈ WINDOWS_RESERVED_FILE_NAMES,
      ¬ String.mk ((n.data.map Char.toUpper) ++ ['_']) = d := by decide

theorem ntfsUp_underscore_ntfs :
    ∀ n1 ∈ NTFS_RESERVED_FILE_NAMES, ∀ n2 ∈ NTFS_RESERVED_FILE_NAMES,
      ¬ String.mk ((n1.data.map Char.toUpper) ++ ['_']) =
        String.mk (n2.data.map Char.toUpper) := by decide

theorem isDeviceName_elim {l : List Char} (h : isDeviceName l = true) :
    ∃ d ∈ WINDOWS_RESERVED_FILE_NAMES, (splitExt l).1.map Char.toUpper = d.data := by
  simp only [isDeviceName, List.any_eq_true, beq_iff_eq] at h
  obtain ⟨d, hd, hEq⟩ := h
  exact ⟨d, hd, (congrArg String.data hEq).symm⟩

theorem device_base_props {l : List Char} (h : isDeviceName l = true) :
    (splitExt l).1 ≠ [] ∧ '.' ∉ (splitExt l).1 := by
  obtain ⟨d, hd, hEq⟩ := isDeviceName_elim h
  constructor
  · intro hnil
    rw [hnil] at hEq
    exact devEntry_nonempty d hd hEq.symm
  · intro hmem
    have h2 : Char.toUpper '.' ∈ (splitExt l).1.map Char.toUpper :=
      List.mem_map_of_mem _ hmem
    rw [hEq] at h2
    have hdot : Char.toUpper '.' = '.' := by decide
    rw [hdot] at h2
    exact devEntry_no_dot d hd h2

theorem mk_data (s : String) : String.mk s.data = s := rfl

theorem isDeviceName_devFix {l : List Char} (h : isDeviceName l = true) :
    isDeviceName (devFix l) = false := by
  obtain ⟨d, hd, hEq⟩ := isDeviceName_elim h
  obtain ⟨hne, hnd⟩ := device_base_props h
  have hsp : splitExt (devFix l) = ((splitExt l).1 ++ ['_'], (splitExt l).2) := by
    unfold devFix
    exact splitExt_base_underscore hne hnd (splitExt_ext_shape l)
  cases hcontr : isDeviceName (devFix l)
  · rfl
  · exfalso
    obtain ⟨d2, hd2, hEq2⟩ := isDeviceName_elim hcontr
    rw [hsp] at hEq2
    rw [List.map_append] at hEq2
    have hund : ([('_' : Char)].map Char.toUpper) = ['_'] := by decide
    rw [hund, hEq] at hEq2
    have : String.mk (d.data ++ ['_']) = d2 := by
      rw [hEq2]
    exact devEntry_underscore d hd d2 hd2 this

theorem isNtfsName_elim {l : List Char} (h : isNtfsName l = true) :
    ∃ n ∈ NTFS_RESERVED_FILE_NAMES, l.map Char.toUpper = n.data.map Char.toUpper := by
  simp only [isNtfsName, List.any_eq_true, beq_iff_eq] at h
  obtain ⟨n, hn, hEq⟩ := h
  refine ⟨n, hn, ?_⟩
  have := congrArg String.data hEq
  exact this.symm

theorem ntfs_props {l : List Char} (h : isNtfsName l = true) :
    l ≠ [] ∧ '.' ∉ l := by
  obtain ⟨n, hn, hEq⟩ := isNtfsName_elim h
  constructor
  · intro hnil
    rw [hnil] at hEq
    exact ntfsUp_nonempty n hn hEq.symm
  · intro hmem
    have h2 : Char.toUpper '.' ∈ l.map Char.toUpper := List.mem_map_of_mem _ hmem
    rw [hEq] at h2
    have hdot : Char.toUpper '.' = '.' := by decide
    rw [hdot] at h2
    exact ntfsUp_no_dot n hn h2

theorem isNtfsName_append_underscore {l : List Char} (h : isNtfsName l = true) :
    isNtfsName (l ++ ['_']) = false := by
  obtain ⟨n, hn, hEq⟩ := isNtfsName_elim h
  cases hcontr : isNtfsName (l ++ ['_'])
  · rfl
  · exfalso
    obtain ⟨n2, hn2, hEq2⟩ := isNtfsName_elim hcontr
    rw [List.map_append] at hEq2
    have hund : ([('_' : Char)].map Char.toUpper) = ['_'] := by decide
    rw [hund, hEq] at hEq2
    exact ntfsUp_underscore_ntfs n hn n2 hn2 (congrArg String.mk hEq2)

theorem isDeviceName_ntfs_underscore {l : List Char} (h : isNtfsName l = true) :
    isDeviceName (l ++ ['_']) = false := by
  obtain ⟨n, hn, hEq⟩ := isNtfsName_elim h
  obtain ⟨hne, hnd⟩ := ntfs_props h
  have hnd2 : '.' ∉ l ++ ['_'] := by
    intro hmem
    simp only [List.mem_append, List.mem_singleton] at hmem
    rcases hmem with hmem | hmem
    · exact hnd hmem
    · cases hmem
  have hsp : splitExt (l ++ ['_']) = (l ++ ['_'], []) := splitExt_dotfree hnd2
  cases hcontr : isDeviceName (l ++ ['_'])
  · rfl
  · exfalso
    obtain ⟨d2, hd2, hEq2⟩ := isDeviceName_elim hcontr
    rw [hsp] at hEq2
    rw [List.map_append] at hEq2
    have hund : ([('_' : Char)].map Char.toUpper) = ['_'] := by decide
    rw [hund, hEq] at hEq2
    have : String.mk ((n.data.map Char.toUpper) ++ ['_']) = d2 := by
      rw [hEq2]
    exact ntfsUp_underscore_dev n hn d2 hd2 this

/-! ### Name-sanitizer properties -/

theorem underscore_not_invalid (p : Platform) : invalidCharB p '_' = false := by
  cases p <;> decide

theorem sanitizeName_posix {p : Platform} (l : List Char) (hw : isWinStyle p = false) :
    sanitizeName p l = l.filter (fun c => !invalidCharB p c) := by
  unfold sanitizeName
  rw [hw]
  simp

theorem sanitizeName_win_dev {p : Platform} {l : List Char} (hw : isWinStyle p = true)
    (hdev : isDeviceName (stripTail (l.filter (fun c => !invalidCharB p c))) = true) :
    sanitizeName p l = devFix (stripTail (l.filter (fun c => !invalidCharB p c))) := by
  unfold sanitizeName
  rw [hw, hdev]
  simp

theorem sanitizeName_win_nodev {p : Platform} {l : List Char} (hw : isWinStyle p = true)
    (hdev : isDeviceName (stripTail (l.filter (fun c => !invalidCharB p c))) = false) :
    sanitizeName p l = stripTail (l.filter (fun c => !invalidCharB p c)) := by
  unfold sanitizeName
  rw [hw, hdev]
  simp

theorem mem_devFix {l : List Char} {c : Char} (h : c ∈ devFix l) : c ∈ l ∨ c = '_' := by
  unfold devFix at h
  simp only [List.mem_append, List.mem_cons] at h
  rcases h with h | h | h
  · left
    rw [← splitExt_append l]
    exact List.mem_append_left _ h
  · right
    exact h
  · left
    rw [← splitExt_append l]
    exact List.mem_append_right _ h

theorem sanitizeName_chars {p : Platform} {g : List Char} :
    ∀ c ∈ sanitizeName p g, invalidCharB p c = false ∧ (c ∈ g ∨ c = '_') := by
  intro c hc
  have hfil : ∀ x ∈ g.filter (fun c => !invalidCharB p c),
      invalidCharB p x = false ∧ x ∈ g := by
    intro x hx
    rw [List.mem_filter] at hx
    exact ⟨by simpa using hx.2, hx.1⟩
  by_cases hw : isWinStyle p = true
  · by_cases hdev : isDeviceName (stripTail (g.filter (fun c => !invalidCharB p c))) = true
    · rw [sanitizeName_win_dev hw hdev] at hc
      rcases mem_devFix hc with hmem | rfl
      · have := hfil c (stripTail_subset c hmem)
        exact ⟨this.1, Or.inl this.2⟩
      · exact ⟨underscore_not_invalid p, Or.inr rfl⟩
    · have hdev' : isDeviceName (stripTail (g.filter (fun c => !invalidCharB p c))) = false := by
        cases h : isDeviceName (stripTail (g.filter (fun c => !invalidCharB p c)))
        · rfl
        · exact absurd h hdev
      rw [sanitizeName_win_nodev hw hdev'] at hc
      have := hfil c (stripTail_subset c hc)
      exact ⟨this.1, Or.inl this.2⟩
  · have hw' : isWinStyle p = false := by
      cases h : isWinStyle p
      · rfl
      · exact absurd h hw
    rw [sanitizeName_posix g hw'] at hc
    have := hfil c hc
    exact ⟨this.1, Or.inl this.2⟩

theorem filter_no_op {p : Platform} {x : List Char}
    (h : ∀ c ∈ x, invalidCharB p c = false) :
    x.filter (fun c => !invalidCharB p c) = x :=
  List.filter_eq_self.mpr (fun c hc => by simp [h c hc])

theorem rev_head_concat (x : List Char) (a : Char) :
    (x ++ [a]).reverse.head? = some a := by simp

theorem isDots_no_device {l : List Char} (hd : isDots l = true) :
    isDeviceName l = false := by
  have : l = ['.'] ∨ l = ['.', '.'] := by
    unfold isDots at hd
    simpa using hd
  rcases this with rfl | rfl <;> decide

theorem exists_concat_of_ne_nil {l : List Char} (h : l ≠ []) :
    ∃ x a, l = x ++ [a] := by
  cases hrev : l.reverse with
  | nil => exact absurd (List.reverse_eq_nil_iff.mp hrev) h
  | cons a t =>
    refine ⟨t.reverse, a, ?_⟩
    have h2 := congrArg List.reverse hrev
    rw [List.reverse_reverse] at h2
    simp [h2]

theorem isDots_of_stripTail_dots {l : List Char}
    (h : isDots (stripTail l) = false) : isDots l = false := by
  cases hd : isDots l
  · rfl
  · rw [stripTail_dots hd] at h
    rw [hd] at h
    cases h

theorem stripTail_devFix {l1 : List Char}
    (hdev : isDeviceName (stripTail l1) = true) :
    stripTail (devFix (stripTail l1)) = devFix (stripTail l1) := by
  have hd2 : isDots (stripTail l1) = false := by
    cases hd : isDots (stripTail l1)
    · rfl
    · rw [isDots_no_device hd] at hdev
      cases hdev
  have hd1 : isDots l1 = false := isDots_of_stripTail_dots hd2
  have hrev := stripTail_rev_head hd1
  rcases splitExt_ext_shape (stripTail l1) with he | ⟨r, he, -⟩
  · -- extension empty: devFix ends in the underscore
    apply stripTail_of_rev_head
    intro c hc
    have : devFix (stripTail l1) = (splitExt (stripTail l1)).1 ++ ['_'] := by
      unfold devFix
      rw [he]
    rw [this, rev_head_concat] at hc
    injection hc with hc
    subst hc
    decide
  · -- extension non-empty: devFix ends in the last character of the input
    have hene : (splitExt (stripTail l1)).2 ≠ [] := by
      rw [he]
      simp
    obtain ⟨x, a, hxa⟩ := exists_concat_of_ne_nil hene
    have hlast : ¬(a = '.' ∨ a = ' ') := by
      apply hrev
      have hsp : stripTail l1 =
          ((splitExt (stripTail l1)).1 ++ x) ++ [a] := by
        conv_lhs => rw [← splitExt_append (stripTail l1)]
        rw [hxa, List.append_assoc]
      rw [hsp, rev_head_concat]
    apply stripTail_of_rev_head
    intro c hc
    have hdf : devFix (stripTail l1) =
        ((splitExt (stripTail l1)).1 ++ '_' :: x) ++ [a] := by
      unfold devFix
      rw [hxa]
      simp
    rw [hdf, rev_head_concat] at hc
    injection hc with hc
    subst hc
    exact hlast

theorem sanitizeName_idem (p : Platform) (g : List Char) :
    sanitizeName p (sanitizeName p g) = sanitizeName p g := by
  have hfil_out : (sanitizeName p g).filter (fun c => !invalidCharB p c) =
      sanitizeName p g :=
    filter_no_op (fun c hc => (sanitizeName_chars c hc).1)
  by_cases hw : isWinStyle p = true
  · by_cases hdev : isDeviceName (stripTail (g.filter (fun c => !invalidCharB p c))) = true
    · have hs := sanitizeName_win_dev hw hdev
      have hstrip := stripTail_devFix hdev
      have hdev2 := isDeviceName_devFix hdev
      have hfil2 : (devFix (stripTail (g.filter (fun c => !invalidCharB p c)))).filter
          (fun c => !invalidCharB p c) =
          devFix (stripTail (g.filter (fun c => !invalidCharB p c))) := hs ▸ hfil_out
      have hcond : isDeviceName (stripTail
          ((devFix (stripTail (g.filter (fun c => !invalidCharB p c)))).filter
            (fun c => !invalidCharB p c))) = false := by
        rw [hfil2, hstrip]
        exact hdev2
      rw [hs, sanitizeName_win_nodev hw hcond, hfil2, hstrip]
    · have hdev' : isDeviceName (stripTail (g.filter (fun c => !invalidCharB p c))) = false := by
        cases h : isDeviceName (stripTail (g.filter (fun c => !invalidCharB p c)))
        · rfl
        · exact absurd h hdev
      have hs := sanitizeName_win_nodev hw hdev'
      have hfil2 : (stripTail (g.filter (fun c => !invalidCharB p c))).filter
          (fun c => !invalidCharB p c) =
          stripTail (g.filter (fun c => !invalidCharB p c)) := hs ▸ hfil_out
      have hcond : isDeviceName (stripTail
          ((stripTail (g.filter (fun c => !invalidCharB p c))).filter
            (fun c => !invalidCharB p c))) = false := by
        rw [hfil2, stripTail_idem]
        exact hdev'
      rw [hs, sanitizeName_win_nodev hw hcond, hfil2, stripTail_idem]
  · have hw' : isWinStyle p = false := by
      cases h : isWinStyle p
      · rfl
      · exact absurd h hw
    rw [sanitizeName_posix g hw', sanitizeName_posix _ hw']
    exact filter_no_op (fun c hc => by
      rw [List.mem_filter] at hc
      simpa using hc.2)

theorem sanitizeName_append_underscore {p : Platform} {x : List Char}
    (hchars : ∀ c ∈ x, invalidCharB p c = false)
    (hntfs : isNtfsName x = true) :
    sanitizeName p (x ++ ['_']) = x ++ ['_'] := by
  have hchars2 : ∀ c ∈ x ++ ['_'], invalidCharB p c = false := by
    intro c hc
    simp only [List.mem_append, List.mem_singleton] at hc
    rcases hc with hc | rfl
    · exact hchars c hc
    · exact underscore_not_invalid p
  have hfil : (x ++ ['_']).filter (fun c => !invalidCharB p c) = x ++ ['_'] :=
    filter_no_op hchars2
  by_cases hw : isWinStyle p = true
  · have hstrip : stripTail (x ++ ['_']) = x ++ ['_'] := by
      apply stripTail_of_rev_head
      intro c hc
      rw [rev_head_concat] at hc
      injection hc with hc
      subst hc
      decide
    have hdev : isDeviceName (x ++ ['_']) = false := isDeviceName_ntfs_underscore hntfs
    have hcond : isDeviceName (stripTail
        ((x ++ ['_']).filter (fun c => !invalidCharB p c))) = false := by
      rw [hfil, hstrip]
      exact hdev
    rw [sanitizeName_win_nodev hw hcond, hfil, hstrip]
  · have hw' : isWinStyle p = false := by
      cases h : isWinStyle p
      · rfl
      · exact absurd h hw
    rw [sanitizeName_posix _ hw', hfil]

theorem sanitizeName_not_device {p : Platform} {g : List Char}
    (hw : isWinStyle p = true) :
    isDeviceName (sanitizeName p g) = false := by
  by_cases hdev : isDeviceName (stripTail (g.filter (fun c => !invalidCharB p c))) = true
  · rw [sanitizeName_win_dev hw hdev]
    exact isDeviceName_devFix hdev
  · have hdev' : isDeviceName (stripTail (g.filter (fun c => !invalidCharB p c))) = false := by
      cases h : isDeviceName (stripTail (g.filter (fun c => !invalidCharB p c)))
      · rfl
      · exact absurd h hdev
    rw [sanitizeName_win_nodev hw hdev']
    exact hdev'

/-! ### Properties of parsed and sanitized components -/

theorem parse_comps_props (p : Platform) (l : List Char) :
    ∀ g ∈ (parsePath p l).2, g ≠ [] ∧ ∀ c ∈ g, isSep p c = false := by
  intro g hg
  unfold parsePath at hg
  split at hg
  · split at hg
    · simp at hg
    · rename_i h t heq
      exact compsOf_props p l g (by rw [heq]; exact List.mem_cons_of_mem _ hg)
  · split at hg
    · exact compsOf_props p l g hg
    · split at hg
      · rename_i d rest heq
        exact compsOf_props p rest g hg
      · exact compsOf_props p l g hg

theorem driveOf_props {p : Platform} {l : List Char} {d : Char} {rest : List Char}
    (h : driveOf p l = some (d, rest)) :
    isWinStyle p = true ∧ d.isAlpha = true := by
  unfold driveOf at h
  split at h
  · rename_i d2 c rest2
    split at h
    · rename_i hcond
      simp only [Bool.and_eq_true, beq_iff_eq] at hcond
      simp only [Option.some.injEq, Prod.mk.injEq] at h
      obtain ⟨hd, -⟩ := h
      subst hd
      exact ⟨hcond.1.1, hcond.1.2⟩
    · cases h
  · cases h

theorem parse_drive_props {p : Platform} {l : List Char} {d : Char}
    (h : (parsePath p l).1 = .drive d) :
    isWinStyle p = true ∧ d.isAlpha = true := by
  unfold parsePath at h
  split at h
  · split at h
    · cases h
    · cases h
  · split at h
    · cases h
    · split at h
      · rename_i d2 rest heq
        injection h with h
        subst h
        exact driveOf_props heq
      · cases h

theorem parse_unc_props {p : Platform} {l : List Char} {host : List Char}
    (h : (parsePath p l).1 = .unc host) :
    isWinStyle p = true ∧ host ≠ [] ∧ ∀ c ∈ host, isSep p c = false := by
  unfold parsePath at h
  split at h
  · rename_i hcond
    split at h
    · cases h
    · rename_i h2 t heq
      injection h with h
      have hp := compsOf_props p l h2 (by rw [heq]; simp)
      subst h
      exact ⟨hcond.2, hp.1, hp.2⟩
  · split at h
    · cases h
    · split at h
      · cases h
      · cases h

theorem underscore_not_sep (p : Platform) : isSep p '_' = false := by
  simp [isSep]

theorem colon_invalid_win {p : Platform} (hw : isWinStyle p = true) :
    invalidCharB p ':' = true := by
  cases p
  · exact absurd hw (by decide)
  · decide
  · exact absurd hw (by decide)
  · decide
  · exact absurd hw (by decide)

theorem goodComps_filter_map (p : Platform) (l : List Char) :
    GoodComps p (((parsePath p l).2.map (sanitizeName p)).filter
      (fun g => !g.isEmpty)) := by
  intro g hg
  rw [List.mem_filter] at hg
  obtain ⟨hg1, hg2⟩ := hg
  rw [List.mem_map] at hg1
  obtain ⟨g0, hg0, rfl⟩ := hg1
  have hprops := parse_comps_props p l g0 hg0
  refine ⟨by simpa using hg2, ?_⟩
  intro c hc
  have hchars := sanitizeName_chars c hc
  have hsepf : isSep p c = false := by
    rcases hchars.2 with hmem | rfl
    · exact hprops.2 c hmem
    · exact underscore_not_sep p
  refine ⟨hsepf, ?_⟩
  intro hw
  intro hcolon
  subst hcolon
  rw [colon_invalid_win hw] at hchars
  exact absurd hchars.1 (by simp)

theorem goodComps_rootFix {p : Platform} {a : PathAnchor} {cs : List (List Char)}
    (h : GoodComps p cs) : GoodComps p (rootFix a cs) := by
  cases cs with
  | nil => exact h
  | cons h0 t =>
    simp only [rootFix]
    split
    · intro g hg
      rw [List.mem_cons] at hg
      rcases hg with rfl | hg
      · have hh0 := h h0 (by simp)
        refine ⟨by simp, ?_⟩
        intro c hc
        rw [List.mem_append] at hc
        rcases hc with hc | hc
        · exact hh0.2 c hc
        · rw [List.mem_singleton] at hc
          subst hc
          exact ⟨underscore_not_sep p, fun _ => by decide⟩
      · exact h g (by simp [hg])
    · exact h

theorem sanitizedComps_good (p : Platform) (l : List Char) :
    GoodComps p (sanitizedComps p l) :=
  goodComps_rootFix (goodComps_filter_map p l)

theorem normAnchor_ne_uncEmpty (a : PathAnchor) : normAnchor a ≠ .uncEmpty := by
  cases a <;> simp [normAnchor]

theorem normAnchor_idem (a : PathAnchor) : normAnchor (normAnchor a) = normAnchor a := by
  cases a <;> simp [normAnchor]

theorem parse_sanitizeCore (p : Platform) (sep : Char) (l : List Char)
    (hsep : isSep p sep = true) :
    parsePath p (sanitizeCore p sep l) =
      (normAnchor (parsePath p l).1, sanitizedComps p l) := by
  unfold sanitizeCore
  have hgood := sanitizedComps_good p l
  cases ha : (parsePath p l).1 with
  | relative =>
    have : normAnchor PathAnchor.relative = .relative := by simp [normAnchor]
    rw [this]
    exact parse_render_relative hsep hgood
  | rooted =>
    have : normAnchor PathAnchor.rooted = .rooted := by simp [normAnchor]
    rw [this]
    exact parse_render_rooted hsep hgood
  | drive d =>
    have hdp := parse_drive_props ha
    have : normAnchor (PathAnchor.drive d) = .drive d := by simp [normAnchor]
    rw [this]
    exact parse_render_drive hsep hgood hdp.1 hdp.2
  | unc host =>
    have hup := parse_unc_props ha
    have : normAnchor (PathAnchor.unc host) = .unc host := by simp [normAnchor]
    rw [this]
    exact parse_render_unc hsep hgood hup.1 hup.2.1 hup.2.2
  | uncEmpty =>
    have : normAnchor PathAnchor.uncEmpty = .rooted := by simp [normAnchor]
    rw [this]
    exact parse_render_rooted hsep hgood

/-! ### Stability of the sanitized components -/

theorem map_eq_self_of_fix {p : Platform} {cs : List (List Char)}
    (h : ∀ g ∈ cs, sanitizeName p g = g) : cs.map (sanitizeName p) = cs := by
  induction cs with
  | nil => rfl
  | cons g t ih =>
    rw [List.map_cons, h g (by simp), ih (fun x hx => h x (by simp [hx]))]

theorem filter_nonempty_no_op {cs : List (List Char)} (h : ∀ g ∈ cs, g ≠ []) :
    cs.filter (fun g => !g.isEmpty) = cs :=
  List.filter_eq_self.mpr (fun g hg => by simpa using h g hg)

theorem mem_rootFix {a : PathAnchor} {cs : List (List Char)} {g : List Char}
    (h : g ∈ rootFix a cs) :
    g ∈ cs ∨ ∃ h0, h0 ∈ cs ∧ isNtfsName h0 = true ∧ g = h0 ++ ['_'] := by
  cases cs with
  | nil => simp [rootFix] at h
  | cons h0 t =>
    simp only [rootFix] at h
    split at h
    · rename_i hcond
      rw [Bool.and_eq_true] at hcond
      rw [List.mem_cons] at h
      rcases h with rfl | h
      · exact Or.inr ⟨h0, by simp, hcond.2, rfl⟩
      · exact Or.inl (by simp [h])
    · exact Or.inl h

theorem mem_sanitized_filter {p : Platform} {l : List Char} {g : List Char}
    (h : g ∈ ((parsePath p l).2.map (sanitizeName p)).filter (fun g => !g.isEmpty)) :
    ∃ g0, g = sanitizeName p g0 := by
  rw [List.mem_filter] at h
  obtain ⟨h1, -⟩ := h
  rw [List.mem_map] at h1
  obtain ⟨g0, -, rfl⟩ := h1
  exact ⟨g0, rfl⟩

theorem sanitizedComps_fix (p : Platform) (l : List Char) :
    ∀ g ∈ sanitizedComps p l, sanitizeName p g = g := by
  intro g hg
  unfold sanitizedComps at hg
  rcases mem_rootFix hg with hmem | ⟨h0, hmem, hntfs, rfl⟩
  · obtain ⟨g0, rfl⟩ := mem_sanitized_filter hmem
    exact sanitizeName_idem p g0
  · obtain ⟨g0, rfl⟩ := mem_sanitized_filter hmem
    exact sanitizeName_append_underscore
      (fun c hc => (sanitizeName_chars c hc).1) hntfs

theorem sanitizedComps_not_device {p : Platform} (l : List Char)
    (hw : isWinStyle p = true) :
    ∀ g ∈ sanitizedComps p l, isDeviceName g = false := by
  intro g hg
  unfold sanitizedComps at hg
  rcases mem_rootFix hg with hmem | ⟨h0, hmem, hntfs, rfl⟩
  · obtain ⟨g0, rfl⟩ := mem_sanitized_filter hmem
    exact sanitizeName_not_device hw
  · exact isDeviceName_ntfs_underscore hntfs

theorem sanitizedComps_chars (p : Platform) (l : List Char) :
    ∀ g ∈ sanitizedComps p l, ∀ c ∈ g, invalidCharB p c = false := by
  intro g hg c hc
  unfold sanitizedComps at hg
  rcases mem_rootFix hg with hmem | ⟨h0, hmem, hntfs, rfl⟩
  · obtain ⟨g0, rfl⟩ := mem_sanitized_filter hmem
    exact (sanitizeName_chars c hc).1
  · obtain ⟨g0, rfl⟩ := mem_sanitized_filter hmem
    rw [List.mem_append] at hc
    rcases hc with hc | hc
    · exact (sanitizeName_chars c hc).1
    · rw [List.mem_singleton] at hc
      subst hc
      exact underscore_not_invalid p

theorem ntfsHead_sanitizedComps (p : Platform) (l : List Char) :
    (normAnchor (parsePath p l).1).isAbs = true →
      ntfsHead (sanitizedComps p l) = false := by
  intro habs
  unfold sanitizedComps
  cases hcs1 : ((parsePath p l).2.map (sanitizeName p)).filter (fun g => !g.isEmpty) with
  | nil => simp [rootFix, ntfsHead]
  | cons h0 t =>
    simp only [rootFix]
    by_cases hcond : ((normAnchor (parsePath p l).1).isAbs && isNtfsName h0) = true
    · rw [if_pos hcond]
      simp only [ntfsHead]
      rw [Bool.and_eq_true] at hcond
      exact isNtfsName_append_underscore hcond.2
    · rw [if_neg hcond]
      simp only [ntfsHead]
      rw [Bool.and_eq_true] at hcond
      cases hn : isNtfsName h0
      · rfl
      · exact absurd ⟨habs, hn⟩ hcond

theorem rootFix_stable {a : PathAnchor} {cs : List (List Char)} :
    rootFix a (rootFix a cs) = rootFix a cs := by
  cases cs with
  | nil => rfl
  | cons h0 t =>
    simp only [rootFix]
    by_cases hcond : (a.isAbs && isNtfsName h0) = true
    · rw [if_pos hcond]
      simp only [rootFix]
      rw [Bool.and_eq_true] at hcond
      rw [isNtfsName_append_underscore hcond.2]
      simp
    · rw [if_neg hcond]
      simp only [rootFix]
      rw [if_neg hcond]

theorem sanitizedComps_stable (p : Platform) (sep : Char) (l : List Char)
    (hsep : isSep p sep = true) :
    sanitizedComps p (sanitizeCore p sep l) = sanitizedComps p l := by
  show rootFix (normAnchor (parsePath p (sanitizeCore p sep l)).1)
      (((parsePath p (sanitizeCore p sep l)).2.map (sanitizeName p)).filter
        (fun g => !g.isEmpty)) = sanitizedComps p l
  rw [parse_sanitizeCore p sep l hsep]
  simp only []
  rw [normAnchor_idem]
  rw [map_eq_self_of_fix (sanitizedComps_fix p l)]
  rw [filter_nonempty_no_op (fun g hg => (sanitizedComps_good p l g hg).1)]
  exact rootFix_stable

theorem sanitizeCore_stable (p : Platform) (sep sep2 : Char) (l : List Char)
    (hsep : isSep p sep = true) :
    sanitizeCore p sep2 (sanitizeCore p sep l) =
      renderPath sep2 (normAnchor (parsePath p l).1) (sanitizedComps p l) := by
  show renderPath sep2 (normAnchor (parsePath p (sanitizeCore p sep l)).1)
      (sanitizedComps p (sanitizeCore p sep l)) = _
  rw [parse_sanitizeCore p sep l hsep]
  simp only []
  rw [normAnchor_idem, sanitizedComps_stable p sep l hsep]

/-! ### Separator choice and full sanitizer idempotence -/

theorem chooseSep_isSep (p : Platform) (l : List Char) :
    isSep p (chooseSep p l) = true := by
  unfold chooseSep
  split
  · rename_i hcond
    obtain ⟨rfl, -⟩ := hcond
    decide
  · simp [isSep]

theorem chooseSep_not_windows {p : Platform} (l : List Char)
    (h : p ≠ .WINDOWS) : chooseSep p l = '/' := by
  unfold chooseSep
  rw [if_neg]
  intro hcond
  exact h hcond.1

theorem mem_joinSep {sep : Char} {cs : List (List Char)} {c : Char}
    (h : c ∈ joinSep sep cs) : c = sep ∨ ∃ g ∈ cs, c ∈ g := by
  induction cs with
  | nil => simp [joinSep] at h
  | cons g t ih =>
    match t with
    | [] =>
      simp only [joinSep] at h
      exact Or.inr ⟨g, by simp, h⟩
    | g2 :: t2 =>
      rw [joinSep_cons_cons] at h
      rw [List.mem_append, List.mem_cons] at h
      rcases h with h | h | h
      · exact Or.inr ⟨g, by simp, h⟩
      · exact Or.inl h
      · rcases ih h with h2 | ⟨g3, hg3, hc3⟩
        · exact Or.inl h2
        · exact Or.inr ⟨g3, by simp [hg3], hc3⟩

theorem mem_renderPath {sep : Char} {a : PathAnchor} {cs : List (List Char)}
    {c : Char} (h : c ∈ renderPath sep a cs) :
    c = sep ∨ c = ':' ∨ (∃ d, a = .drive d ∧ c = d) ∨
      (∃ host, a = .unc host ∧ c ∈ host) ∨ ∃ g ∈ cs, c ∈ g := by
  cases a with
  | relative =>
    simp only [renderPath] at h
    rcases mem_joinSep h with h | h
    · exact Or.inl h
    · exact Or.inr (Or.inr (Or.inr (Or.inr h)))
  | rooted =>
    simp only [renderPath] at h
    rw [List.mem_cons] at h
    rcases h with rfl | h
    · exact Or.inl rfl
    · rcases mem_joinSep h with h | h
      · exact Or.inl h
      · exact Or.inr (Or.inr (Or.inr (Or.inr h)))
  | drive d =>
    cases cs with
    | nil =>
      simp only [renderPath] at h
      rw [List.mem_cons, List.mem_singleton] at h
      rcases h with rfl | rfl
      · exact Or.inr (Or.inr (Or.inl ⟨c, rfl, rfl⟩))
      · exact Or.inr (Or.inl rfl)
    | cons g t =>
      simp only [renderPath] at h
      rw [List.mem_cons, List.mem_cons, List.mem_cons] at h
      rcases h with rfl | rfl | rfl | h
      · exact Or.inr (Or.inr (Or.inl ⟨c, rfl, rfl⟩))
      · exact Or.inr (Or.inl rfl)
      · exact Or.inl rfl
      · rcases mem_joinSep h with h | h
        · exact Or.inl h
        · exact Or.inr (Or.inr (Or.inr (Or.inr h)))
  | unc host =>
    cases cs with
    | nil =>
      simp only [renderPath] at h
      rw [List.mem_cons, List.mem_cons] at h
      rcases h with rfl | rfl | h
      · exact Or.inl rfl
      · exact Or.inl rfl
      · exact Or.inr (Or.inr (Or.inr (Or.inl ⟨host, rfl, h⟩)))
    | cons g t =>
      simp only [renderPath] at h
      rw [List.mem_cons, List.mem_cons] at h
      rcases h with rfl | rfl | h
      · exact Or.inl rfl
      · exact Or.inl rfl
      · rw [List.mem_append, List.mem_cons] at h
        rcases h with h | h | h
        · exact Or.inr (Or.inr (Or.inr (Or.inl ⟨host, rfl, h⟩)))
        · exact Or.inl h
        · rcases mem_joinSep h with h2 | h2
          · exact Or.inl h2
          · exact Or.inr (Or.inr (Or.inr (Or.inr h2)))
  | uncEmpty =>
    simp only [renderPath] at h
    rw [List.mem_singleton] at h
    exact Or.inl h

theorem normAnchor_drive {a : PathAnchor} {d : Char}
    (h : normAnchor a = .drive d) : a = .drive d := by
  cases a <;> simp [normAnchor] at h <;> simp [h]

theorem normAnchor_unc {a : PathAnchor} {host : List Char}
    (h : normAnchor a = .unc host) : a = .unc host := by
  cases a <;> simp [normAnchor] at h <;> simp [h]

theorem render_sep_indep {a : PathAnchor} {cs : List (List Char)} {sep : Char}
    (h : sep ∉ renderPath sep a cs) (sep2 : Char) :
    renderPath sep2 a cs = renderPath sep a cs := by
  cases a with
  | relative =>
    match cs with
    | [] => rfl
    | [g] => rfl
    | g :: g2 :: t =>
      exfalso
      apply h
      simp only [renderPath]
      rw [joinSep_cons_cons]
      rw [List.mem_append, List.mem_cons]
      exact Or.inr (Or.inl rfl)
  | rooted =>
    exfalso
    apply h
    simp [renderPath]
  | drive d =>
    match cs with
    | [] => rfl
    | g :: t =>
      exfalso
      apply h
      simp [renderPath]
  | unc host =>
    match cs with
    | [] =>
      exfalso
      apply h
      simp [renderPath]
    | g :: t =>
      exfalso
      apply h
      simp [renderPath]
  | uncEmpty =>
    exfalso
    apply h
    simp [renderPath]

theorem no_backslash_windows_render (l : List Char)
    (hnb : '\\' ∉ l) :
    '\\' ∉ sanitizeCore Platform.WINDOWS '/' l := by
  intro hmem
  unfold sanitizeCore at hmem
  rcases mem_renderPath hmem with h | h | ⟨d, hd, rfl⟩ | ⟨host, hh, hmem2⟩ | ⟨g, hg, hc⟩
  · cases h
  · cases h
  · have := parse_drive_props (normAnchor_drive hd)
    exact absurd this.2 (by decide)
  · have := parse_unc_props (normAnchor_unc hh)
    have hsep := this.2.2 '\\' hmem2
    rw [show isSep Platform.WINDOWS '\\' = true from by decide] at hsep
    cases hsep
  · have := (sanitizedComps_good Platform.WINDOWS l g hg).2 '\\' hc
    rw [show isSep Platform.WINDOWS '\\' = true from by decide] at this
    exact absurd this.1 (by simp)

theorem sanitizeCore_choose_stable (p : Platform) (l : List Char) :
    sanitizeCore p (chooseSep p (sanitizeCore p (chooseSep p l) l))
      (sanitizeCore p (chooseSep p l) l) = sanitizeCore p (chooseSep p l) l := by
  have hsep0 := chooseSep_isSep p l
  have hstable := sanitizeCore_stable p (chooseSep p l)
    (chooseSep p (sanitizeCore p (chooseSep p l) l)) l hsep0
  rw [hstable]
  have ht : sanitizeCore p (chooseSep p l) l =
      renderPath (chooseSep p l) (normAnchor (parsePath p l).1)
        (sanitizedComps p l) := rfl
  by_cases hwin : p = Platform.WINDOWS
  · subst hwin
    by_cases hb : ('\\' : Char) ∈ l
    · have hsep_eq : chooseSep Platform.WINDOWS l = '\\' := by
        unfold chooseSep
        rw [if_pos ⟨rfl, hb⟩]
      by_cases hbt : ('\\' : Char) ∈ sanitizeCore Platform.WINDOWS
          (chooseSep Platform.WINDOWS l) l
      · have hct : chooseSep Platform.WINDOWS (sanitizeCore Platform.WINDOWS
            (chooseSep Platform.WINDOWS l) l) = '\\' := by
          unfold chooseSep
          rw [if_pos ⟨rfl, hbt⟩]
        rw [hct, ht, hsep_eq]
      · have hct : chooseSep Platform.WINDOWS (sanitizeCore Platform.WINDOWS
            (chooseSep Platform.WINDOWS l) l) = '/' := by
          unfold chooseSep
          rw [if_neg]
          intro hcond
          exact hbt hcond.2
        rw [hct, ht, hsep_eq]
        apply render_sep_indep
        rw [ht, hsep_eq] at hbt
        exact hbt
    · have hsep_eq : chooseSep Platform.WINDOWS l = '/' := by
        unfold chooseSep
        rw [if_neg]
        intro hcond
        exact hb hcond.2
      have hnb : ('\\' : Char) ∉ sanitizeCore Platform.WINDOWS
          (chooseSep Platform.WINDOWS l) l := by
        rw [hsep_eq]
        exact no_backslash_windows_render l hb
      have hct : chooseSep Platform.WINDOWS (sanitizeCore Platform.WINDOWS
          (chooseSep Platform.WINDOWS l) l) = '/' := by
        unfold chooseSep
        rw [if_neg]
        intro hcond
        exact hnb hcond.2
      rw [hct, ht, hsep_eq]
  · rw [chooseSep_not_windows _ hwin, ht, chooseSep_not_windows _ hwin]

/-! ### Soundness of the sanitizer against the validator -/

theorem validateCore_sanitizeCore (p : Platform) (sep : Char) (l : List Char)
    (hsep : isSep p sep = true) :
    validateCore p (sanitizeCore p sep l) = .ok := by
  unfold validateCore
  rw [parse_sanitizeCore p sep l hsep]
  simp only []
  rw [if_neg (normAnchor_ne_uncEmpty (parsePath p l).1)]
  have h2 : (sanitizedComps p l).any (fun g => g.any (fun c => invalidCharB p c)) = false := by
    rw [List.any_eq_false]
    intro g hg
    have hgf : (g.any fun c => invalidCharB p c) = false := by
      rw [List.any_eq_false]
      intro c hc
      rw [sanitizedComps_chars p l g hg c hc]
      simp
    simp [hgf]
  have h3 : (isWinStyle p && (sanitizedComps p l).any isDeviceName) = false := by
    cases hw : isWinStyle p
    · simp
    · simp only [Bool.true_and]
      rw [List.any_eq_false]
      intro g hg
      rw [sanitizedComps_not_device l hw g hg]
      simp
  have h4 : ((normAnchor (parsePath p l).1).isAbs && ntfsHead (sanitizedComps p l)) = false := by
    cases habs : (normAnchor (parsePath p l).1).isAbs
    · simp
    · simp only [Bool.true_and]
      exact ntfsHead_sanitizedComps p l habs
  rw [if_neg (by rw [h2]; simp), if_neg (by rw [h3]; simp), if_neg (by rw [h4]; simp)]

theorem defaultMaxPathLen_pos (p : Platform) : 1 ≤ defaultMaxPathLen p := by
  cases p <;> decide

theorem validate_filepath_none_none (s : String) (p : Platform) :
    validate_filepath s p none none =
      (if s.data = [] then VResult.fail .NULL_NAME
       else if (s.data.length : Int) > defaultMaxPathLen p then .fail .INVALID_LENGTH
       else if (s.data.length : Int) < 1 then .fail .INVALID_LENGTH
       else validateCore p s.data) := by
  unfold validate_filepath
  simp only [Option.getD]
  have hpos := defaultMaxPathLen_pos p
  rw [if_neg (by omega), if_neg (by
    have : max DEFAULT_MIN_LEN 1 = 1 := by decide
    rw [this]
    omega)]
  have hmm : (max DEFAULT_MIN_LEN 1 : Int) = 1 := by decide
  simp only [hmm]

/-! ### Evaluation on plain repeated-letter paths -/

theorem isSep_letter (p : Platform) (c : Char) (h1 : (c == '/') = false)
    (h2 : (c == '\\') = false) : isSep p c = false := by
  simp [isSep, h1, h2]

theorem parsePath_replicate {p : Platform} {c : Char} {n : Nat}
    (hn : n ≠ 0) (hsep : isSep p c = false) (hcolon : (c == ':') = false) :
    parsePath p (List.replicate n c) = (.relative, [List.replicate n c]) := by
  have hcomps : compsOf p (List.replicate n c) = [List.replicate n c] := by
    apply compsOf_sepfree
    · simp [hn]
    · intro x hx
      rw [List.eq_of_mem_replicate hx]
      exact hsep
  have hlead : leadSeps p (List.replicate n c) = 0 := by
    cases n with
    | zero => exact absurd rfl hn
    | succ m =>
      rw [List.replicate_succ]
      exact leadSeps_cons_nosep _ hsep
  unfold parsePath
  rw [hlead]
  rw [if_neg (by simp), if_neg (by simp)]
  have hdrive : driveOf p (List.replicate n c) = none := by
    unfold driveOf
    cases n with
    | zero => exact absurd rfl hn
    | succ m =>
      cases m with
      | zero => simp [List.replicate_succ]
      | succ m2 =>
        rw [List.replicate_succ, List.replicate_succ]
        simp only []
        rw [hcolon]
        simp
  rw [hdrive, hcomps]

theorem devEntry_not_allA :
    ∀ d ∈ WINDOWS_RESERVED_FILE_NAMES, d.data.all (fun c => c == 'A') = false := by
  decide

theorem devEntry_not_allB :
    ∀ d ∈ WINDOWS_RESERVED_FILE_NAMES, d.data.all (fun c => c == 'B') = false := by
  decide

theorem isDeviceName_replicate {c : Char} (n : Nat) (hdot : (c == '.') = false)
    (hall : ∀ d ∈ WINDOWS_RESERVED_FILE_NAMES,
      d.data.all (fun x => x == Char.toUpper c) = false) :
    isDeviceName (List.replicate n c) = false := by
  cases hd : isDeviceName (List.replicate n c)
  · rfl
  · exfalso
    obtain ⟨d, hdm, hEq⟩ := isDeviceName_elim hd
    have hdf : ('.' : Char) ∉ List.replicate n c := by
      intro hm
      have := List.eq_of_mem_replicate hm
      rw [this] at hdot
      simp at hdot
    rw [splitExt_dotfree hdf] at hEq
    simp only [List.map_replicate] at hEq
    have hall2 := hall d hdm
    rw [← hEq] at hall2
    have htrue : (List.replicate n (Char.toUpper c)).all
        (fun x => x == Char.toUpper c) = true := by
      rw [List.all_eq_true]
      intro x hx
      rw [List.eq_of_mem_replicate hx]
      simp
    rw [htrue] at hall2
    cases hall2

theorem letter_a_not_invalid (p : Platform) : invalidCharB p 'a' = false := by
  cases p <;> decide

theorem validateCore_replicate_a (p : Platform) (n : Nat) (hn : n ≠ 0) :
    validateCore p (List.replicate n 'a') = .ok := by
  unfold validateCore
  rw [parsePath_replicate hn (isSep_letter p 'a' (by decide) (by decide)) (by decide)]
  simp only []
  rw [if_neg (by simp)]
  have h2 : ([List.replicate n 'a'] : List (List Char)).any
      (fun g => g.any (fun c => invalidCharB p c)) = false := by
    rw [List.any_eq_false]
    intro g hg
    rw [List.mem_singleton] at hg
    subst hg
    have hgf : ((List.replicate n 'a').any fun c => invalidCharB p c) = false := by
      rw [List.any_eq_false]
      intro c hc
      rw [List.eq_of_mem_replicate hc, letter_a_not_invalid p]
      simp
    simp [hgf]
  have h3 : (isWinStyle p && ([List.replicate n 'a'] : List (List Char)).any
      isDeviceName) = false := by
    cases hw : isWinStyle p
    · simp
    · simp only [Bool.true_and]
      rw [List.any_eq_false]
      intro g hg
      rw [List.mem_singleton] at hg
      subst hg
      rw [isDeviceName_replicate n (by decide) (by
        have hA : Char.toUpper 'a' = 'A' := by decide
        rw [hA]
        exact devEntry_not_allA)]
      simp
  rw [if_neg (by rw [h2]; simp), if_neg (by rw [h3]; simp)]
  simp [PathAnchor.isAbs]

theorem stripTail_replicate {c : Char} (n : Nat) (hdot : (c == '.') = false)
    (hsp : (c == ' ') = false) :
    stripTail (List.replicate n c) = List.replicate n c := by
  apply stripTail_of_rev_head
  intro x hx
  rw [List.reverse_replicate] at hx
  cases n with
  | zero => simp at hx
  | succ m =>
    rw [List.replicate_succ] at hx
    simp only [List.head?_cons, Option.some.injEq] at hx
    subst hx
    intro hor
    rcases hor with rfl | rfl
    · simp at hdot
    · simp at hsp

theorem filter_replicate_no_invalid {p : Platform} {c : Char} (n : Nat)
    (h : invalidCharB p c = false) :
    (List.replicate n c).filter (fun x => !invalidCharB p x) = List.replicate n c := by
  apply filter_no_op
  intro x hx
  rw [List.eq_of_mem_replicate hx]
  exact h

theorem sanitizeName_replicate_a (p : Platform) (n : Nat) :
    sanitizeName p (List.replicate n 'a') = List.replicate n 'a' := by
  have hfil := filter_replicate_no_invalid (p := p) (c := 'a') n (letter_a_not_invalid p)
  by_cases hw : isWinStyle p = true
  · have hstrip := stripTail_replicate (c := 'a') n (by decide) (by decide)
    have hdev : isDeviceName (stripTail ((List.replicate n 'a').filter
        (fun x => !invalidCharB p x))) = false := by
      rw [hfil, hstrip]
      exact isDeviceName_replicate n (by decide) (by
        have hA : Char.toUpper 'a' = 'A' := by decide
        rw [hA]
        exact devEntry_not_allA)
    rw [sanitizeName_win_nodev hw hdev, hfil, hstrip]
  · have hw' : isWinStyle p = false := by
      cases h : isWinStyle p
      · rfl
      · exact absurd h hw
    rw [sanitizeName_posix _ hw', hfil]

theorem rootFix_relative (cs : List (List Char)) : rootFix .relative cs = cs := by
  cases cs with
  | nil => rfl
  | cons h t => simp [rootFix, PathAnchor.isAbs]

theorem sanitize_replicate_a (p : Platform) (n : Nat) (hn : n ≠ 0) :
    sanitize_filepath (String.mk (List.replicate n 'a')) p =
      String.mk (List.replicate n 'a') := by
  unfold sanitize_filepath
  apply congrArg String.mk
  have hdata : (String.mk (List.replicate n 'a')).data = List.replicate n 'a' := rfl
  rw [hdata]
  unfold sanitizeCore
  rw [parsePath_replicate hn (isSep_letter p 'a' (by decide) (by decide)) (by decide)]
  unfold sanitizedComps
  rw [parsePath_replicate hn (isSep_letter p 'a' (by decide) (by decide)) (by decide)]
  simp only [List.map_cons, List.map_nil]
  rw [sanitizeName_replicate_a p n]
  have hne : (List.replicate n 'a').isEmpty = false := by
    cases n with
    | zero => exact absurd rfl hn
    | succ m => simp [List.replicate_succ]
  simp only [List.filter, hne]
  have hnorm : normAnchor PathAnchor.relative = .relative := by simp [normAnchor]
  rw [hnorm, rootFix_relative]
  simp [renderPath, joinSep]

/-! ### Length-boundary evaluation lemmas -/

theorem validate_replicate_none_ok (p : Platform) (n : Nat) (hn : n ≠ 0)
    (hle : (n : Int) ≤ defaultMaxPathLen p) :
    validate_filepath (String.mk (List.replicate n 'a')) p none none = .ok := by
  rw [validate_filepath_none_none]
  have hd : (String.mk (List.replicate n 'a')).data = List.replicate n 'a' := rfl
  rw [hd]
  rw [if_neg (by simp [hn])]
  rw [List.length_replicate]
  rw [if_neg (by omega), if_neg (by omega)]
  exact validateCore_replicate_a p n hn

theorem validate_replicate_none_long (p : Platform) (n : Nat)
    (hgt : (n : Int) > defaultMaxPathLen p) :
    validate_filepath (String.mk (List.replicate n 'a')) p none none =
      .fail .INVALID_LENGTH := by
  rw [validate_filepath_none_none]
  have hd : (String.mk (List.replicate n 'a')).data = List.replicate n 'a' := rfl
  rw [hd]
  have hpos := defaultMaxPathLen_pos p
  have hn : n ≠ 0 := by
    intro h
    subst h
    simp at hgt
    omega
  rw [if_neg (by simp [hn])]
  rw [List.length_replicate]
  rw [if_pos (by omega)]

theorem validate_some_unfold (s : String) (p : Platform) (minO : Option Int)
    (m : Int) :
    validate_filepath s p minO (some m) =
      (if min m (defaultMaxPathLen p) < 1 then VResult.usageError
       else if min m (defaultMaxPathLen p) < max (minO.getD DEFAULT_MIN_LEN) 1 then
         .usageError
       else if s.data = [] then .fail .NULL_NAME
       else if (s.data.length : Int) > min m (defaultMaxPathLen p) then
         .fail .INVALID_LENGTH
       else if (s.data.length : Int) < max (minO.getD DEFAULT_MIN_LEN) 1 then
         .fail .INVALID_LENGTH
       else validateCore p s.data) := rfl

theorem validate_replicate_some_ok (p : Platform) (n : Nat) (m : Int)
    (hn : n ≠ 0) (h1 : 1 ≤ min m (defaultMaxPathLen p))
    (hle : (n : Int) ≤ min m (defaultMaxPathLen p)) :
    validate_filepath (String.mk (List.replicate n 'a')) p none (some m) = .ok := by
  rw [validate_some_unfold]
  have hd : (String.mk (List.replicate n 'a')).data = List.replicate n 'a' := rfl
  rw [hd]
  have hMM : (max (Option.getD (none : Option Int) DEFAULT_MIN_LEN) 1 : Int) = 1 := by
    decide
  rw [hMM]
  rw [if_neg (by omega), if_neg (by omega), if_neg (by simp [hn])]
  rw [List.length_replicate]
  rw [if_neg (by omega), if_neg (by omega)]
  exact validateCore_replicate_a p n hn

theorem validate_replicate_some_long (p : Platform) (n : Nat) (m : Int)
    (h1 : 1 ≤ min m (defaultMaxPathLen p))
    (hgt : (n : Int) > min m (defaultMaxPathLen p)) :
    validate_filepath (String.mk (List.replicate n 'a')) p none (some m) =
      .fail .INVALID_LENGTH := by
  rw [validate_some_unfold]
  have hd : (String.mk (List.replicate n 'a')).data = List.replicate n 'a' := rfl
  rw [hd]
  have hMM : (max (Option.getD (none : Option Int) DEFAULT_MIN_LEN) 1 : Int) = 1 := by
    decide
  rw [hMM]
  have hn : n ≠ 0 := by
    intro h
    subst h
    simp at hgt
    omega
  rw [if_neg (by omega), if_neg (by omega), if_neg (by simp [hn])]
  rw [List.length_replicate]
  rw [if_pos (by omega)]

/-! ### Malformed-UNC evaluation lemmas -/

theorem compsOf_replicate_sep {p : Platform} {c : Char} (k : Nat)
    (h : isSep p c = true) :
    compsOf p (List.replicate k c) = [] := by
  induction k with
  | zero => exact compsOf_nil p
  | succ m ih => rw [List.replicate_succ, compsOf_cons_sep _ h, ih]

theorem leadSeps_replicate_sep {p : Platform} {c : Char} (k : Nat)
    (h : isSep p c = true) :
    leadSeps p (List.replicate k c) = k := by
  induction k with
  | zero => exact leadSeps_nil p
  | succ m ih => rw [List.replicate_succ, leadSeps_cons_sep _ h, ih]

theorem parsePath_replicate_backslash (k : Nat) (hk : 2 ≤ k) :
    parsePath Platform.WINDOWS (List.replicate k '\\') = (.uncEmpty, []) := by
  have hsep : isSep Platform.WINDOWS '\\' = true := by decide
  unfold parsePath
  rw [leadSeps_replicate_sep k hsep, compsOf_replicate_sep k hsep]
  rw [if_pos ⟨hk, rfl⟩]

theorem validateCore_replicate_backslash (k : Nat) (hk : 2 ≤ k) :
    validateCore Platform.WINDOWS (List.replicate k '\\') =
      .fail .MALFORMED_ABS_PATH := by
  unfold validateCore
  rw [parsePath_replicate_backslash k hk]
  simp

/-! ### Claim theorems -/

/-- C1 counterexample: the soundness claim fails as stated.  The 261-character
path of letters is returned unchanged by sanitize_filepath on windows (it is
non-empty), yet validate_filepath rejects it with INVALID_LENGTH because it
exceeds the 260-character default whole-path limit. -/
theorem C1_soundness_counterexample :
    sanitize_filepath (String.mk (List.replicate 261 'a')) Platform.WINDOWS ≠ ("") ∧
    validate_filepath
      (sanitize_filepath (String.mk (List.replicate 261 'a')) Platform.WINDOWS)
      Platform.WINDOWS none none = .fail .INVALID_LENGTH := by
  have hs := sanitize_replicate_a Platform.WINDOWS 261 (by decide)
  constructor
  · rw [hs]
    intro h
    have h2 := congrArg String.data h
    have h3 : (List.replicate 261 'a').length = ([] : List Char).length :=
      congrArg List.length h2
    rw [List.length_replicate] at h3
    cases h3
  · rw [hs]
    exact validate_replicate_none_long Platform.WINDOWS 261 (by decide)

/-- C1 (amended): soundness of sanitization holds up to the whole-path length
limit, which sanitize_filepath does not enforce.  For every string s and
platform p, if sanitize_filepath(s, p) is non-empty and its length is within
the platform's default maximum path length, then validate_filepath of the
result succeeds on p. -/
theorem C1_sanitize_sound_amended (s : String) (p : Platform)
    (hne : sanitize_filepath s p ≠ (""))
    (hlen : ((sanitize_filepath s p).data.length : Int) ≤ defaultMaxPathLen p) :
    validate_filepath (sanitize_filepath s p) p none none = .ok := by
  rw [validate_filepath_none_none]
  have hdne : (sanitize_filepath s p).data ≠ [] := by
    intro h
    apply hne
    rw [← mk_data (sanitize_filepath s p), h]
  rw [if_neg hdne]
  have hpos : 0 < (sanitize_filepath s p).data.length := List.length_pos.mpr hdne
  rw [if_neg (by omega), if_neg (by omega)]
  have hd : (sanitize_filepath s p).data =
      sanitizeCore p (chooseSep p s.data) s.data := rfl
  rw [hd]
  exact validateCore_sanitizeCore p _ s.data (chooseSep_isSep p s.data)

/-- C1 (amended) witness at a concrete input. -/
theorem C1_sanitize_sound_amended_witness :
    validate_filepath (sanitize_filepath ("hello") Platform.LINUX)
      Platform.LINUX none none = VResult.ok :=
  C1_sanitize_sound_amended ("hello") Platform.LINUX (by decide) (by decide)

/-- C2: sanitization is idempotent.  For every string s and every platform p,
sanitize_filepath(sanitize_filepath(s, p), p) equals sanitize_filepath(s, p). -/
theorem C2_sanitize_idempotent (s : String) (p : Platform) :
    sanitize_filepath (sanitize_filepath s p) p = sanitize_filepath s p :=
  congrArg String.mk (sanitizeCore_choose_stable p s.data)

/-- C3: on every platform, every NTFS metadata name of
_NTFS_RESERVED_FILE_NAMES fails validate_filepath with RESERVED_NAME when it
is the root-level component of an absolute path (with or without further
components), and validates successfully in any non-root position (mid-path of
an absolute path, or anywhere in a relative path). -/
theorem C3_ntfs_root_reserved :
    ∀ p : Platform, ∀ n ∈ NTFS_RESERVED_FILE_NAMES,
      validate_filepath (String.mk ('/' :: n.data)) p none none =
        .fail .RESERVED_NAME ∧
      validate_filepath (String.mk ('/' :: n.data ++ '/' :: ['x'])) p none none =
        .fail .RESERVED_NAME ∧
      validate_filepath (String.mk ('/' :: 'a' :: '/' :: n.data)) p none none = .ok ∧
      validate_filepath n p none none = .ok := by
  intro p
  cases p <;> decide

/-- C3 witness at a concrete platform and NTFS name. -/
theorem C3_ntfs_root_reserved_witness :
    validate_filepath (String.mk ('/' :: ("$Mft").data)) Platform.WINDOWS
        none none = VResult.fail .RESERVED_NAME ∧
    validate_filepath (String.mk ('/' :: ("$Mft").data ++ '/' :: ['x']))
        Platform.WINDOWS none none = VResult.fail .RESERVED_NAME ∧
    validate_filepath (String.mk ('/' :: 'a' :: '/' :: ("$Mft").data))
        Platform.WINDOWS none none = VResult.ok ∧
    validate_filepath ("$Mft") Platform.WINDOWS none none = VResult.ok :=
  C3_ntfs_root_reserved Platform.WINDOWS ("$Mft") (by decide)

/-- C4 counterexample: the claim is false as stated.  An NTFS metadata name in
a non-root component of a drive-prefixed windows path validates successfully;
it does not fail with ReservedName. -/
theorem C4_midpath_ntfs_counterexample :
    validate_filepath ("C:\\abc\\$MFT") Platform.WINDOWS none none =
      VResult.ok := by decide

/-- C4 (amended): an NTFS metadata name in a non-root component of a
drive-prefixed windows path validates successfully; the same name fails with
RESERVED_NAME only in root position, and on linux it is an ordinary legal
name everywhere. -/
theorem C4_midpath_ntfs_amended :
    validate_filepath ("C:\\abc\\$MFT") Platform.WINDOWS none none = VResult.ok ∧
    validate_filepath ("C:\\$MFT") Platform.WINDOWS none none =
      VResult.fail .RESERVED_NAME ∧
    validate_filepath ("abc\\$MFT\\xyz") Platform.LINUX none none = VResult.ok := by
  decide

/-- C5 counterexample: the claim is false as stated.  A path whose final
component ends in a period validates successfully on windows. -/
theorem C5_trailing_counterexample :
    validate_filepath ("period.") Platform.WINDOWS none none = VResult.ok := by
  decide

/-- C5 (amended): validate_filepath accepts paths whose final component ends
in a period or space on windows, universal and linux alike; the
trailing-character restriction is not enforced by filepath validation (it is
a sanitizer rewrite only). -/
theorem C5_trailing_amended :
    validate_filepath ("period.") Platform.WINDOWS none none = VResult.ok ∧
    validate_filepath ("space ") Platform.WINDOWS none none = VResult.ok ∧
    validate_filepath ("space_and_period .") Platform.WINDOWS none none = VResult.ok ∧
    validate_filepath ("space_and_period. ") Platform.WINDOWS none none = VResult.ok ∧
    validate_filepath ("period.") Platform.UNIVERSAL none none = VResult.ok ∧
    validate_filepath ("space ") Platform.UNIVERSAL none none = VResult.ok ∧
    validate_filepath ("space_and_period .") Platform.UNIVERSAL none none = VResult.ok ∧
    validate_filepath ("period.") Platform.LINUX none none = VResult.ok ∧
    validate_filepath ("space ") Platform.LINUX none none = VResult.ok := by
  decide

/-- C6 counterexample: a caller-supplied max_len does not override the
platform default upward.  A path of exactly max_len = 10000 characters fails
with INVALID_LENGTH on windows because the effective limit is
min(10000, 260) = 260. -/
theorem C6_maxlen_counterexample :
    validate_filepath (String.mk (List.replicate 10000 'a')) Platform.WINDOWS
      none (some 10000) = VResult.fail .INVALID_LENGTH :=
  validate_replicate_some_long Platform.WINDOWS 10000 10000 (by decide) (by decide)

/-- C6 (amended): with max_len unspecified, a 4096-character path passes on
linux and 4097 fails with INVALID_LENGTH; 260 passes and 261 fails on windows
and on universal; a caller-supplied max_len lowers but never raises the
platform default: the effective limit is min(max_len, default), with the
exact boundary at that effective limit. -/
theorem C6_length_boundary_amended :
    validate_filepath (String.mk (List.replicate 4096 'a')) Platform.LINUX
        none none = VResult.ok ∧
    validate_filepath (String.mk (List.replicate 4097 'a')) Platform.LINUX
        none none = VResult.fail .INVALID_LENGTH ∧
    validate_filepath (String.mk (List.replicate 260 'a')) Platform.WINDOWS
        none none = VResult.ok ∧
    validate_filepath (String.mk (List.replicate 261 'a')) Platform.WINDOWS
        none none = VResult.fail .INVALID_LENGTH ∧
    validate_filepath (String.mk (List.replicate 260 'a')) Platform.UNIVERSAL
        none none = VResult.ok ∧
    validate_filepath (String.mk (List.replicate 261 'a')) Platform.UNIVERSAL
        none none = VResult.fail .INVALID_LENGTH ∧
    ∀ (p : Platform) (m : Int), 1 ≤ min m (defaultMaxPathLen p) →
      validate_filepath
          (String.mk (List.replicate (min m (defaultMaxPathLen p)).toNat 'a')) p
          none (some m) = VResult.ok ∧
      validate_filepath
          (String.mk (List.replicate ((min m (defaultMaxPathLen p)).toNat + 1) 'a'))
          p none (some m) = VResult.fail .INVALID_LENGTH := by
  refine ⟨validate_replicate_none_ok _ 4096 (by decide) (by decide),
    validate_replicate_none_long _ 4097 (by decide),
    validate_replicate_none_ok _ 260 (by decide) (by decide),
    validate_replicate_none_long _ 261 (by decide),
    validate_replicate_none_ok _ 260 (by decide) (by decide),
    validate_replicate_none_long _ 261 (by decide), ?_⟩
  intro p m h1
  have htn : ((min m (defaultMaxPathLen p)).toNat : Int) =
      min m (defaultMaxPathLen p) := Int.toNat_of_nonneg (by omega)
  constructor
  · apply validate_replicate_some_ok p _ m _ h1
    · rw [htn]
    · intro h
      rw [h] at htn
      simp at htn
      omega
  · apply validate_replicate_some_long p _ m h1
    have : (((min m (defaultMaxPathLen p)).toNat + 1 : Nat) : Int) =
        min m (defaultMaxPathLen p) + 1 := by
      omega
    rw [this]
    omega

/-- C6 (amended) witness at a concrete platform and caller max_len. -/
theorem C6_length_boundary_amended_witness :
    validate_filepath (String.mk (List.replicate ((min 100 (defaultMaxPathLen
        Platform.LINUX)).toNat) 'a')) Platform.LINUX none (some 100) =
      VResult.ok ∧
    validate_filepath (String.mk (List.replicate ((min 100 (defaultMaxPathLen
        Platform.LINUX)).toNat + 1) 'a')) Platform.LINUX none (some 100) =
      VResult.fail .INVALID_LENGTH :=
  (C6_length_boundary_amended.2.2.2.2.2.2) Platform.LINUX 100 (by decide)

/-- C7 counterexample: the claim is false as stated.  A UNC path with a host
but no share component validates successfully on windows. -/
theorem C7_unc_counterexample :
    validate_filepath ("\\\\localhost\\") Platform.WINDOWS none none =
      VResult.ok := by decide

/-- C7 (amended): a UNC prefix missing only its share part is accepted (for
example a bare host, with or without a trailing separator); only a UNC prefix
with no host at all, i.e. a path consisting solely of two or more
separators, fails with MALFORMED_ABS_PATH. -/
theorem C7_unc_amended :
    validate_filepath ("\\\\localhost\\") Platform.WINDOWS none none = VResult.ok ∧
    validate_filepath ("\\\\localhost") Platform.WINDOWS none none = VResult.ok ∧
    validate_filepath ("\\\\localhost\\Users") Platform.WINDOWS none none =
      VResult.ok ∧
    validate_filepath ("\\\\") Platform.WINDOWS none none =
      VResult.fail .MALFORMED_ABS_PATH ∧
    ∀ k : Nat, 2 ≤ k → (k : Int) ≤ 260 →
      validate_filepath (String.mk (List.replicate k '\\')) Platform.WINDOWS
        none none = VResult.fail .MALFORMED_ABS_PATH := by
  refine ⟨by decide, by decide, by decide, by decide, ?_⟩
  intro k hk hk260
  rw [validate_filepath_none_none]
  have hd : (String.mk (List.replicate k '\\')).data = List.replicate k '\\' := rfl
  rw [hd]
  have hne : List.replicate k '\\' ≠ [] := by
    simp
    omega
  rw [if_neg hne]
  rw [List.length_replicate]
  have h260 : defaultMaxPathLen Platform.WINDOWS = 260 := rfl
  rw [h260]
  rw [if_neg (by omega), if_neg (by omega)]
  exact validateCore_replicate_backslash k hk

/-- C7 (amended) witness at a concrete host-less UNC input. -/
theorem C7_unc_amended_witness :
    validate_filepath (String.mk (List.replicate 3 '\\')) Platform.WINDOWS
      none none = VResult.fail .MALFORMED_ABS_PATH :=
  C7_unc_amended.2.2.2.2 3 (by decide) (by decide)

/-- C8 counterexample: the claim is false as stated.  A call with the
non-positive min_len of -2 does not raise a usage error; it validates the
data normally and succeeds. -/
theorem C8_minlen_counterexample :
    validate_filepath ("abc") Platform.LINUX (some (-2)) (some 100) =
      VResult.ok := by decide

/-- C8 (amended): a non-positive effective max_len (min of the caller value
and the platform default), or an effective max_len smaller than the clamped
min_len, raises a generic usage error before the data is examined, never a
ValidationError; a non-positive min_len is not an error: it is clamped to
DEFAULT_MIN_LEN = 1 and the call behaves exactly as with min_len = 1. -/
theorem C8_usage_errors_amended :
    (∀ (s : String) (p : Platform) (minO : Option Int) (m : Int),
      min m (defaultMaxPathLen p) < 1 →
        validate_filepath s p minO (some m) = VResult.usageError) ∧
    (∀ (s : String) (p : Platform) (minL m : Int),
      1 ≤ min m (defaultMaxPathLen p) →
      min m (defaultMaxPathLen p) < max minL 1 →
        validate_filepath s p (some minL) (some m) = VResult.usageError) ∧
    (∀ (s : String) (p : Platform) (minL : Int) (maxO : Option Int),
      minL ≤ 0 →
        validate_filepath s p (some minL) maxO =
          validate_filepath s p (some 1) maxO) := by
  refine ⟨?_, ?_, ?_⟩
  · intro s p minO m h
    rw [validate_some_unfold]
    rw [if_pos h]
  · intro s p minL m h1 h2
    rw [validate_some_unfold]
    rw [if_neg (by omega)]
    simp only [Option.getD]
    rw [if_pos h2]
  · intro s p minL maxO h
    unfold validate_filepath
    simp only [Option.getD]
    have h1 : (max minL 1 : Int) = 1 := by omega
    have h2 : (max (1 : Int) 1 : Int) = 1 := by decide
    simp only [h1, h2]

/-- C8 (amended) witness at concrete inputs. -/
theorem C8_usage_errors_amended_witness :
    validate_filepath ("abc") Platform.LINUX none (some 0) =
      VResult.usageError ∧
    validate_filepath ("abc") Platform.LINUX (some 100) (some 1) =
      VResult.usageError ∧
    validate_filepath ("abc") Platform.LINUX (some (-2)) (some 100) =
      validate_filepath ("abc") Platform.LINUX (some 1) (some 100) :=
  ⟨C8_usage_errors_amended.1 ("abc") Platform.LINUX none 0 (by decide),
   C8_usage_errors_amended.2.1 ("abc") Platform.LINUX 100 1 (by decide) (by decide),
   C8_usage_errors_amended.2.2 ("abc") Platform.LINUX (-2) (some 100) (by decide)⟩

/-- C9 counterexample: the claim is false as stated.  The Platform enumeration
of src/pathvalidate/_const.py has a fifth member, LINUX, distinct from POSIX,
Windows, macOS and Universal. -/
theorem C9_platform_counterexample :
    Platform.LINUX ≠ Platform.POSIX ∧ Platform.LINUX ≠ Platform.WINDOWS ∧
    Platform.LINUX ≠ Platform.MACOS ∧ Platform.LINUX ≠ Platform.UNIVERSAL := by
  decide

/-- C9 (amended): the Platform type is an enumeration with exactly the five
values POSIX, UNIVERSAL, LINUX, WINDOWS and MACOS, pairwise distinct, and a
platform value is immutable once selected (values are pure data). -/
theorem C9_platform_amended :
    (∀ p : Platform, p = .POSIX ∨ p = .UNIVERSAL ∨ p = .LINUX ∨
      p = .WINDOWS ∨ p = .MACOS) ∧
    ([Platform.POSIX, .UNIVERSAL, .LINUX, .WINDOWS, .MACOS].Pairwise (· ≠ ·)) ∧
    Platform.value .LINUX = ("Linux") := by
  refine ⟨?_, by decide, by decide⟩
  intro p
  cases p
  · exact Or.inl rfl
  · exact Or.inr (Or.inl rfl)
  · exact Or.inr (Or.inr (Or.inl rfl))
  · exact Or.inr (Or.inr (Or.inr (Or.inl rfl)))
  · exact Or.inr (Or.inr (Or.inr (Or.inr rfl)))

/-- C10: error-subclass invariant.  Whatever keyword arguments are passed to
the constructor, a NullNameError has reason NULL_NAME, an InvalidCharError
INVALID_CHARACTER, an InvalidLengthError INVALID_LENGTH, a ReservedNameError
RESERVED_NAME; additionally every ValidReservedNameError has
reusable_name = true, every InvalidReservedNameError has
reusable_name = false, and both carry reason RESERVED_NAME. -/
theorem C10_error_reason_invariant (k : ErrKwargs) :
    (mkNullNameError k).reason = some .NULL_NAME ∧
    (mkInvalidCharError k).reason = some .INVALID_CHARACTER ∧
    (mkInvalidLengthError k).reason = some .INVALID_LENGTH ∧
    (mkReservedNameError k).reason = some .RESERVED_NAME ∧
    (mkValidReservedNameError k).reusable_name = some true ∧
    (mkValidReservedNameError k).reason = some .RESERVED_NAME ∧
    (mkInvalidReservedNameError k).reusable_name = some false ∧
    (mkInvalidReservedNameError k).reason = some .RESERVED_NAME :=
  ⟨rfl, rfl, rfl, rfl, rfl, rfl, rfl, rfl⟩
